import Mathlib

/-!
Verification development for the mewroo ingestion core
(src/backend/app/ingest). Timestamps and as-of dates are modelled as `Int`
seconds since the epoch; `timedelta(days = d)` is `d * 86400`. The external
ClickHouse client is modelled by an explicit, append-only list of state rows
plus an event trace recording fetches, bulk inserts and state writes.
-/

/-- Drop leading whitespace characters. -/
def dropWhileWs : List Char → List Char
  | [] => []
  | c :: cs => if c.isWhitespace then dropWhileWs cs else c :: cs

/-- Python `str.strip()`: drop whitespace at both ends. Implemented over the
character list so that concrete evaluation reduces in the kernel. -/
def String.pyStrip (s : String) : String :=
  ⟨dropWhileWs ((dropWhileWs s.data.reverse)).reverse⟩

/-- Python `str.lower()` over the character list. -/
def String.pyLower (s : String) : String :=
  ⟨s.data.map Char.toLower⟩

namespace Mewroo

/-- A row of the append-only state table `finance_yf.ingest_state`
(written by `set_state` in common.py). -/
structure StateRow where
  source : String
  target : String
  key : String
  last_ts : Option Int
  last_asof_date : Option Int
  updated_at : Nat
deriving DecidableEq

/-- The state table: an append-only list of rows. -/
abbrev StateStore := List StateRow

/-- The WHERE clause of `get_state`: the row matches the queried
(source, target, key) triple. -/
def StateRow.matchesKey (r : StateRow) (s t k : String) : Bool :=
  r.source == s && r.target == t && r.key == k

/-- One step of `ORDER BY updated_at DESC LIMIT 1`: keep the row with the
larger `updated_at` (later rows win ties, as in a stable reverse sort). -/
def latestUpd (acc : Option StateRow) (r : StateRow) : Option StateRow :=
  match acc with
  | none => some r
  | some b => if b.updated_at ≤ r.updated_at then some r else some b

/-- The row selected by `ORDER BY updated_at DESC LIMIT 1`. -/
def pickLatest (l : List StateRow) : Option StateRow :=
  l.foldl latestUpd none

/-- `get_state` of common.py: the watermarks of the most recently written
state row for the key, or two `none` when no row matches. -/
def get_state (store : StateStore) (s t k : String) : Option Int × Option Int :=
  match pickLatest (store.filter (fun r => r.matchesKey s t k)) with
  | none => (none, none)
  | some r => (r.last_ts, r.last_asof_date)

/-- `set_state` of common.py: append one row, never mutating prior rows.
The store stamps `updated_at`; modelled as the current length so that
successive writes carry strictly increasing stamps. -/
def set_state (store : StateStore) (s t k : String)
    (last_ts last_asof_date : Option Int) : StateStore :=
  store ++ [⟨s, t, k, last_ts, last_asof_date, store.length⟩]

/-- Well-formed store: every existing write stamp is below the next stamp.
Holds for every store grown from `[]` by `set_state`. -/
def WF (store : StateStore) : Prop := ∀ r ∈ store, r.updated_at < store.length

theorem WF_nil : WF [] := by
  intro r hr
  cases hr

theorem WF_set_state (store : StateStore) (h : WF store) (s t k : String)
    (a b : Option Int) : WF (set_state store s t k a b) := by
  intro r hr
  rw [set_state] at hr
  rcases List.mem_append.mp hr with h1 | h2
  · have := h r h1
    simp only [set_state, List.length_append, List.length_cons, List.length_nil]
    omega
  · have : r = ⟨s, t, k, a, b, store.length⟩ := by
      simpa using h2
    subst this
    simp only [set_state, List.length_append, List.length_cons, List.length_nil]
    omega

theorem latestUpd_cases (acc : Option StateRow) (r : StateRow) :
    latestUpd acc r = some r ∨ latestUpd acc r = acc := by
  cases acc with
  | none => exact Or.inl rfl
  | some b =>
    by_cases h : b.updated_at ≤ r.updated_at
    · exact Or.inl (by simp [latestUpd, h])
    · exact Or.inr (by simp [latestUpd, h])

theorem foldl_latestUpd_mem :
    ∀ (l : List StateRow) (acc : Option StateRow) (r : StateRow),
      l.foldl latestUpd acc = some r → r ∈ l ∨ acc = some r := by
  intro l
  induction l with
  | nil =>
    intro acc r h
    exact Or.inr h
  | cons x xs ih =>
    intro acc r h
    rcases ih (latestUpd acc x) r h with h1 | h2
    · exact Or.inl (List.mem_cons_of_mem _ h1)
    · rcases latestUpd_cases acc x with e | e
      · rw [e] at h2
        have : x = r := by injection h2
        exact Or.inl (this ▸ List.mem_cons_self _ _)
      · rw [e] at h2
        exact Or.inr h2

theorem foldl_latestUpd_ge :
    ∀ (l : List StateRow) (acc : Option StateRow) (r : StateRow),
      l.foldl latestUpd acc = some r →
      (∀ q ∈ l, q.updated_at ≤ r.updated_at) ∧
      (∀ b, acc = some b → b.updated_at ≤ r.updated_at) := by
  intro l
  induction l with
  | nil =>
    intro acc r h
    refine ⟨fun q hq => absurd hq (List.not_mem_nil q), fun b hb => ?_⟩
    rw [hb] at h
    injection h with h2
    exact h2 ▸ le_refl _
  | cons x xs ih =>
    intro acc r h
    have ihh := ih (latestUpd acc x) r h
    have hx : x.updated_at ≤ r.updated_at := by
      cases acc with
      | none => exact ihh.2 x rfl
      | some b =>
        by_cases hb : b.updated_at ≤ x.updated_at
        · exact ihh.2 x (by simp [latestUpd, hb])
        · have hbr := ihh.2 b (by simp [latestUpd, hb])
          omega
    refine ⟨fun q hq => ?_, fun b hb => ?_⟩
    · rcases List.mem_cons.mp hq with h1 | h2
      · exact h1 ▸ hx
      · exact ihh.1 q h2
    · cases acc with
      | none => cases hb
      | some c =>
        have hc : c = b := by injection hb
        subst hc
        by_cases hcb : c.updated_at ≤ x.updated_at
        · have := ihh.2 x (by simp [latestUpd, hcb])
          omega
        · exact ihh.2 c (by simp [latestUpd, hcb])

theorem foldl_latestUpd_some :
    ∀ (l : List StateRow) (b : StateRow), l.foldl latestUpd (some b) ≠ none := by
  intro l
  induction l with
  | nil =>
    intro b h
    cases h
  | cons x xs ih =>
    intro b
    rcases latestUpd_cases (some b) x with e | e
    · rw [List.foldl_cons, e]
      exact ih x
    · rw [List.foldl_cons, e]
      exact ih b

theorem pickLatest_append_one (l : List StateRow) (x : StateRow)
    (hx : ∀ q ∈ l, q.updated_at < x.updated_at) :
    pickLatest (l ++ [x]) = some x := by
  rw [pickLatest, List.foldl_append]
  cases hl : l.foldl latestUpd none with
  | none => rfl
  | some b =>
    have hb : b ∈ l := by
      rcases foldl_latestUpd_mem l none b hl with h1 | h2
      · exact h1
      · cases h2
    have : b.updated_at ≤ x.updated_at := le_of_lt (hx b hb)
    simp [latestUpd, this]

theorem get_state_set_state (store : StateStore) (h : WF store)
    (s t k s2 t2 k2 : String) (a b : Option Int) :
    get_state (set_state store s t k a b) s2 t2 k2 =
      if s == s2 && t == t2 && k == k2 then (a, b)
      else get_state store s2 t2 k2 := by
  have hfilter :
      (set_state store s t k a b).filter (fun r => r.matchesKey s2 t2 k2) =
        store.filter (fun r => r.matchesKey s2 t2 k2) ++
          (if s == s2 && t == t2 && k == k2
            then [(⟨s, t, k, a, b, store.length⟩ : StateRow)] else []) := by
    rw [set_state, List.filter_append]
    congr 1
    by_cases hm : (s == s2 && t == t2 && k == k2) = true
    · simp [StateRow.matchesKey, hm]
    · simp only [List.filter]
      rw [show (StateRow.matchesKey ⟨s, t, k, a, b, store.length⟩ s2 t2 k2) =
          (s == s2 && t == t2 && k == k2) from rfl]
      simp [hm]
  by_cases hm : (s == s2 && t == t2 && k == k2) = true
  · rw [get_state, hfilter, if_pos hm, if_pos hm]
    rw [pickLatest_append_one]
    intro q hq
    exact h q (List.mem_of_mem_filter hq)
  · rw [get_state, hfilter, if_neg hm, if_neg hm]
    simp only [List.append_nil]
    rfl

/-- Claim C7: `get_state` returns the watermark pair of the state row with the
maximum `updated_at` among all rows for the key (not assuming one row per key),
and `(none, none)` when no row for the key exists. The maximal row is taken to
be unique, as it is for any store grown via `set_state`. -/
theorem C7_get_state_latest (store : StateStore) (s t k : String) :
    (store.filter (fun r => r.matchesKey s t k) = [] →
      get_state store s t k = (none, none)) ∧
    (∀ r ∈ store.filter (fun r => r.matchesKey s t k),
      (∀ q ∈ store.filter (fun r => r.matchesKey s t k),
        q = r ∨ q.updated_at < r.updated_at) →
      get_state store s t k = (r.last_ts, r.last_asof_date)) := by
  constructor
  · intro hempty
    rw [get_state, hempty]
    rfl
  · intro r hr hmax
    rw [get_state]
    cases hp : pickLatest (store.filter (fun x => x.matchesKey s t k)) with
    | none =>
      exfalso
      cases hys : store.filter (fun x => x.matchesKey s t k) with
      | nil =>
        rw [hys] at hr
        exact absurd hr (List.not_mem_nil r)
      | cons y ys =>
        rw [pickLatest, hys, List.foldl_cons] at hp
        exact foldl_latestUpd_some ys y hp
    | some b =>
      have hbmem : b ∈ store.filter (fun x => x.matchesKey s t k) := by
        rcases foldl_latestUpd_mem _ none b hp with h1 | h2
        · exact h1
        · cases h2
      have hge := (foldl_latestUpd_ge _ none b hp).1
      rcases hmax b hbmem with he | hlt
      · rw [he]
      · have := hge r hr
        omega

/-- Witness for C7 at a concrete three-row store with two rows for the queried
key: the pair of the row with the larger write stamp is returned. -/
theorem C7_witness :
    get_state
      [⟨"yfinance", "dim_industry", "ALL", none, some 3, 0⟩,
       ⟨"yfinance", "fact_market_cap", "AAPL", none, some 9, 1⟩,
       ⟨"yfinance", "dim_industry", "ALL", none, some 7, 2⟩]
      "yfinance" "dim_industry" "ALL" = (none, some 7) :=
  (C7_get_state_latest
      [⟨"yfinance", "dim_industry", "ALL", none, some 3, 0⟩,
       ⟨"yfinance", "fact_market_cap", "AAPL", none, some 9, 1⟩,
       ⟨"yfinance", "dim_industry", "ALL", none, some 7, 2⟩]
      "yfinance" "dim_industry" "ALL").2
    ⟨"yfinance", "dim_industry", "ALL", none, some 7, 2⟩
    (by decide) (by decide)

/-- Comparison of optional watermark values, for monotonicity statements:
an absent watermark is below everything, a present one is below exactly the
present values that are at least as large. -/
def wleB (a b : Option Int) : Bool :=
  match a, b with
  | none, _ => true
  | some _, none => false
  | some x, some y => decide (x ≤ y)

theorem wleB_refl (a : Option Int) : wleB a a = true := by
  cases a <;> simp [wleB]

theorem wleB_trans {a b c : Option Int} (h1 : wleB a b = true)
    (h2 : wleB b c = true) : wleB a c = true := by
  cases a with
  | none => rfl
  | some x =>
    cases b with
    | none => cases h1
    | some y =>
      cases c with
      | none => cases h2
      | some z =>
        simp only [wleB, decide_eq_true_eq] at h1 h2 ⊢
        omega

/-- Python's `if last_asof and last_asof >= asof` guard of the snapshot
policy (a datetime value is always truthy). -/
def skipGate (last_asof : Option Int) (asof : Int) : Bool :=
  match last_asof with
  | some l => decide (asof ≤ l)
  | none => false

/-- Concatenation of the per-entity outputs of a batch loop. -/
def flatAll {α β : Type} (f : α → List β) : List α → List β
  | [] => []
  | x :: xs => f x ++ flatAll f xs

theorem flatAll_append {α β : Type} (f : α → List β) (l1 l2 : List α) :
    flatAll f (l1 ++ l2) = flatAll f l1 ++ flatAll f l2 := by
  induction l1 with
  | nil => rfl
  | cons x xs ih => simp [flatAll, ih]

/-- The `str()` and `float()` views of one dataframe cell: `asStr` is the
cell rendered by `str`, `asFloat` is `some` exactly when `float(cell)` does
not raise. -/
structure Cell where
  asStr : String
  asFloat : Option Rat
deriving DecidableEq

/-- A raw tabular provider response after `reset_index()`: named columns and
rows of cells, in column order. -/
structure RawTable where
  columns : List String
  rows : List (List Cell)
deriving DecidableEq

/-- Cell of a row at a named column (pandas `r[col]` for a column known to be
present; a stray name yields an empty cell, which the code never relies on). -/
def cellAt (columns : List String) (row : List Cell) (c : String) : Cell :=
  (row.get? (columns.findIdx (fun x => x == c))).getD ⟨"", none⟩

/-- The `for c in df.columns` scan of ingest_dim_industry lines 90-97: the
last matching column wins because the loop keeps overwriting. -/
def findLastCol (columns : List String) (p : String → Bool) : Option String :=
  columns.foldl (fun acc c => if p c then some c else acc) none

/-- Python `c.lower().strip()`. -/
def lowerStrip (c : String) : String := c.pyLower.pyStrip

/-- The columns resolved by ingest_dim_industry lines 79-103. -/
structure DimCols where
  keyCol : String
  nameCol : String
  symbolCol : String
  weightCol : String
deriving DecidableEq

/-- Column detection of ingest_dim_industry: `key` column or first column as
the industry key, then a scan for name, symbol and weight columns; `none`
when one of the three is missing (the sector is then skipped) or when the
table has no columns at all (indexing `df.columns[0]` raises, and the
per-sector handler catches it). -/
def detectDimCols (columns : List String) : Option DimCols :=
  match columns with
  | [] => none
  | c0 :: _ =>
    let keyCol := if columns.contains "key" then "key" else c0
    match findLastCol columns (fun c => lowerStrip c == "name"),
          findLastCol columns (fun c => lowerStrip c == "symbol"),
          findLastCol columns (fun c =>
            lowerStrip c == "market weight" || lowerStrip c == "market_weight"
              || lowerStrip c == "weight") with
    | some n, some s, some w => some ⟨keyCol, n, s, w⟩
    | _, _, _ => none

/-- A canonical industry-dimension row (finance_yf.dim_industry). -/
structure DimRow where
  sector_key : String
  industry_key : String
  industry_name : String
  industry_symbol : String
  market_weight : Rat
  asof_date : Int
  ingested_at : Int
deriving DecidableEq

/-- Result of `yf.Sector(key).industries` for one sector key: an exception,
`None` (or an empty frame, modelled as a table with no rows), or a table. -/
abbrev SectorFetch := String → Except String (Option RawTable)

/-- Rows contributed by one sector (the body of the per-sector loop of
ingest_dim_industry, lines 67-130): empty on a fetch exception, a missing or
empty frame, or failed column detection; otherwise one row per table row
whose industry key does not normalize to empty or to "nan", with an
unparseable market weight falling back to 0.0. -/
def sectorRows (fetch : SectorFetch) (asof ingested_at : Int)
    (sector_key : String) : List DimRow :=
  match fetch sector_key with
  | .error _ => []
  | .ok none => []
  | .ok (some tbl) =>
    if tbl.rows.isEmpty then []
    else
      match detectDimCols tbl.columns with
      | none => []
      | some dc =>
        tbl.rows.filterMap (fun row =>
          let industry_key := (cellAt tbl.columns row dc.keyCol).asStr.pyStrip
          let industry_name := (cellAt tbl.columns row dc.nameCol).asStr.pyStrip
          let symbol := (cellAt tbl.columns row dc.symbolCol).asStr.pyStrip
          let market_weight := ((cellAt tbl.columns row dc.weightCol).asFloat).getD 0
          if industry_key == "" || industry_key == "nan" then none
          else some ⟨sector_key, industry_key, industry_name, symbol,
            market_weight, asof, ingested_at⟩)

/-- A canonical membership row (finance_yf.industry_membership). -/
structure MemRow where
  asof_date : Int
  sector_key : String
  industry_key : String
  ticker : String
  ticker_name : String
  source : String
  ingested_at : Int
deriving DecidableEq

/-- A canonical market-cap row (finance_yf.fact_market_cap). -/
structure CapRow where
  asof_date : Int
  ticker : String
  market_cap : Rat
  currency : String
  source : String
  ingested_at : Int
deriving DecidableEq

/-- A canonical price record as built by ingest_stock_prices lines 156-181. -/
structure PriceRec where
  ts : Int
  ticker : String
  interval : String
  openP : Rat
  highP : Rat
  lowP : Rat
  closeP : Rat
  adj_close : Rat
  volume : Int
  source : String
  ingested_at : Int
deriving DecidableEq

/-- Observable actions of one job invocation, in order: provider fetches,
bulk inserts into the columnar store, and state-table writes. The
`insertPrices` event is tagged with the state key `ticker|interval` of the
rows it lands. -/
inductive Event where
  | fetchSector (k : String)
  | fetchIndustry (k : String)
  | fetchTickerInfo (t : String)
  | downloadChunk (chunk : List String) (start : Int)
  | insertDim (rows : List DimRow)
  | insertMembership (rows : List MemRow)
  | insertCap (rows : List CapRow)
  | insertPrices (key : String) (recs : List PriceRec)
  | setStateEv (source target key : String) (last_ts last_asof : Option Int)
  | logFail (entity : String)
deriving DecidableEq

/-- ingest_dim_industry (src/backend/app/ingest/ingest_dim_industry.py):
skip when the snapshot gate fires and force is off; otherwise collect rows
across sectors, bulk-insert them when nonempty, and always append the ALL
state row for the as-of date. Returns the row count, the event trace and the
new state store. -/
def ingest_dim_industry (fetch : SectorFetch) (store : StateStore)
    (sectors : List String) (asof ingested_at : Int) (force : Bool) :
    Nat × List Event × StateStore :=
  if !force && skipGate (get_state store "yfinance" "dim_industry" "ALL").2 asof then
    (0, [], store)
  else
    let rows := flatAll (sectorRows fetch asof ingested_at) sectors
    (rows.length,
     sectors.map Event.fetchSector ++
       (if rows.isEmpty then [] else [Event.insertDim rows]) ++
       [Event.setStateEv "yfinance" "dim_industry" "ALL" none (some asof)],
     set_state store "yfinance" "dim_industry" "ALL" none (some asof))

/-- Starts-with test on character lists. -/
def listStarts : List Char → List Char → Bool
  | [], _ => true
  | _ :: _, [] => false
  | a :: as, b :: bs => a == b && listStarts as bs

/-- Substring test on character lists (Python's `in` on strings). -/
def listHasSub (pat : List Char) : List Char → Bool
  | [] => listStarts pat []
  | c :: tl => listStarts pat (c :: tl) || listHasSub pat tl

/-- A raw `top_companies` frame (ingest_industry_membership): the index name,
the named columns, and rows carrying the index cell alongside the column
cells. `reset_index()` turns the index into a leading column. -/
structure MemTable where
  indexName : Option String
  columns : List String
  rows : List (Cell × List Cell)
deriving DecidableEq

/-- First column whose lowercased name equals the candidate
(`cols.index(cand)` over the lowercased column list). -/
def firstColMatching (columns : List String) (cand : String) : Option String :=
  columns.find? (fun c => c.pyLower == cand)

/-- Ticker-column detection of ingest_industry_membership lines 53-58:
candidates "symbol" then "ticker". -/
def detectSym (columns : List String) : Option String :=
  match firstColMatching columns "symbol" with
  | some c => some c
  | none => firstColMatching columns "ticker"

/-- Name-column detection of ingest_industry_membership lines 72-77:
candidates "name", "longname", "shortname". -/
def detectName (columns : List String) : Option String :=
  match firstColMatching columns "name" with
  | some c => some c
  | none =>
    match firstColMatching columns "longname" with
    | some c => some c
    | none => firstColMatching columns "shortname"

/-- Resolution of the effective table and ticker column
(ingest_industry_membership lines 51-70): detect on the columns; failing
that, when the index name is truthy and contains "symbol", reset the index
into a leading column and detect again; `none` skips the industry. -/
def memResolve (top : MemTable) : Option (List String × List (List Cell) × String) :=
  match detectSym top.columns with
  | some sym => some (top.columns, top.rows.map Prod.snd, sym)
  | none =>
    match top.indexName with
    | some iname =>
      if iname != "" && listHasSub "symbol".toList iname.pyLower.toList then
        let cols1 := iname :: top.columns
        match detectSym cols1 with
        | some sym => some (cols1, top.rows.map (fun r => r.1 :: r.2), sym)
        | none => none
      else none
    | none => none

/-- Rows contributed by one industry of the dim catalog (the body of the
per-industry loop of ingest_industry_membership, lines 44-90). -/
def memRowsOf (fetchTop : String → Except String (Option MemTable))
    (asof ingested_at : Int) (entry : String × String × String) : List MemRow :=
  match fetchTop entry.2.1 with
  | .error _ => []
  | .ok none => []
  | .ok (some top) =>
    if top.rows.isEmpty then []
    else
      match memResolve top with
      | none => []
      | some (cols, rws, sym) =>
        let nameCol := detectName cols
        rws.filterMap (fun r =>
          let ticker := (cellAt cols r sym).asStr.pyStrip
          if ticker == "" || ticker == "nan" then none
          else
            let tname := match nameCol with
              | some nc => (cellAt cols r nc).asStr.pyStrip
              | none => ""
            some ⟨asof, entry.1, entry.2.1, ticker, tname,
              "yfinance_top_companies", ingested_at⟩)

/-- ingest_membership (src/backend/app/ingest/ingest_industry_membership.py):
snapshot-gated like the dimension job; iterates the dim catalog rows
(sector_key, industry_key, industry_name) obtained from the store, and always
appends the ALL state row at the end. -/
def ingest_membership (dimCatalog : List (String × String × String))
    (fetchTop : String → Except String (Option MemTable))
    (store : StateStore) (asof ingested_at : Int) (force : Bool) :
    Nat × List Event × StateStore :=
  if !force && skipGate (get_state store "yfinance" "industry_membership" "ALL").2 asof then
    (0, [], store)
  else
    let rows := flatAll (memRowsOf fetchTop asof ingested_at) dimCatalog
    (rows.length,
     dimCatalog.map (fun e => Event.fetchIndustry e.2.1) ++
       (if rows.isEmpty then [] else [Event.insertMembership rows]) ++
       [Event.setStateEv "yfinance" "industry_membership" "ALL" none (some asof)],
     set_state store "yfinance" "industry_membership" "ALL" none (some asof))

/-- Result of `yf.Ticker(t).info` relevant to the market-cap job. -/
structure TickerInfo where
  marketCap : Option Rat
  currency : Option String
deriving DecidableEq

/-- Accumulator of the per-ticker loop of ingest_market_cap. -/
structure CapAcc where
  total : Nat
  batch : List CapRow
  events : List Event
  store : StateStore
deriving DecidableEq

/-- One iteration of the per-ticker loop of ingest_market_cap (lines 58-85):
normalize the ticker, apply the snapshot gate against the current state,
fetch the scalar info inside a per-ticker exception boundary, skip tickers
without a market cap, and append the canonical row to the in-memory batch
while writing the per-ticker state row immediately. -/
def capStep (fetchInfo : String → Except String TickerInfo)
    (asof ingested_at : Int) (force : Bool) (acc : CapAcc) (tkr0 : String) :
    CapAcc :=
  let tkr := tkr0.pyStrip
  if tkr == "" || tkr == "nan" then acc
  else if !force && skipGate (get_state acc.store "yfinance" "fact_market_cap" tkr).2 asof then acc
  else
    match fetchInfo tkr with
    | .error _ =>
      { acc with events := acc.events ++ [Event.fetchTickerInfo tkr, Event.logFail tkr] }
    | .ok info =>
      match info.marketCap with
      | none => { acc with events := acc.events ++ [Event.fetchTickerInfo tkr] }
      | some mc =>
        { total := acc.total + 1,
          batch := acc.batch ++
            [⟨asof, tkr, mc, info.currency.getD "", "yfinance_info", ingested_at⟩],
          events := acc.events ++
            [Event.fetchTickerInfo tkr,
             Event.setStateEv "yfinance" "fact_market_cap" tkr none (some asof)],
          store := set_state acc.store "yfinance" "fact_market_cap" tkr none (some asof) }

/-- ingest_market_cap (src/backend/app/ingest/ingest_fact_market_cap.py):
per-ticker snapshot gating and state writes inside the loop, one bulk insert
of the accumulated batch after the loop. -/
def ingest_market_cap (fetchInfo : String → Except String TickerInfo)
    (store : StateStore) (tickers : List String) (asof ingested_at : Int)
    (force : Bool) : Nat × List Event × StateStore :=
  let acc := tickers.foldl (capStep fetchInfo asof ingested_at force)
    ⟨0, [], [], store⟩
  (acc.total,
   acc.events ++ (if acc.batch.isEmpty then [] else [Event.insertCap acc.batch]),
   acc.store)

/-- One raw row of a per-ticker price sub-frame: the timestamp after
`pd.to_datetime(..., errors="coerce").dt.floor("s")` (`none` is NaT), and the
OHLCV cells after `pd.to_numeric(..., errors="coerce")` (`none` is NaN, i.e.
a missing or unparseable value). -/
structure RawPriceRow where
  ts : Option Int
  openV : Option Rat
  highV : Option Rat
  lowV : Option Rat
  closeV : Option Rat
  adjV : Option Rat
  volV : Option Int
deriving DecidableEq

/-- The per-ticker sub-frame of a `yf.download` response: which of the
expected columns are present (normalize_download lines 48-50 fill a missing
column with 0.0, or 0 for Volume), and the rows. -/
structure RawFrame where
  hasOpen : Bool
  hasHigh : Bool
  hasLow : Bool
  hasClose : Bool
  hasAdj : Bool
  hasVol : Bool
  rows : List RawPriceRow
deriving DecidableEq

/-- A normalized price row as produced by normalize_download: `none` fields
are the NaN values that the record construction later falls back on. -/
structure NormRow where
  ts : Int
  ticker : String
  interval : String
  openV : Option Rat
  highV : Option Rat
  lowV : Option Rat
  closeV : Rat
  adjV : Option Rat
  volume : Int
deriving DecidableEq

/-- Effective numeric cell: a missing column was filled with 0.0, a present
column keeps its (possibly NaN) value. -/
def effR (has : Bool) (v : Option Rat) : Option Rat :=
  if has then v else some 0

/-- Effective volume cell: missing column filled with 0, then
`fillna(0)` (normalize_download line 80). -/
def effVol (has : Bool) (v : Option Int) : Int :=
  if has then v.getD 0 else 0

/-- Per-row normalization: drop the row when the timestamp is NaT
(`dropna(subset=["ts"])`, line 54) or when the effective close is NaN
(`dropna(subset=["close"])`, line 83); otherwise keep the sanitized values. -/
def normRowOf (f : RawFrame) (t interval : String) (r : RawPriceRow) :
    Option NormRow :=
  match r.ts with
  | none => none
  | some ts =>
    match effR f.hasClose r.closeV with
    | none => none
    | some c =>
      some ⟨ts, t, interval, effR f.hasOpen r.openV, effR f.hasHigh r.highV,
        effR f.hasLow r.lowV, c, effR f.hasAdj r.adjV, effVol f.hasVol r.volV⟩

/-- Rows contributed by one ticker of a download: nothing when the ticker is
absent from the response, its sanitized rows otherwise. -/
def tickRows (frames : String → Option RawFrame) (interval w : String) :
    List NormRow :=
  match frames w with
  | none => []
  | some f => f.rows.filterMap (normRowOf f w interval)

/-- normalize_download (ingest_fact_stock_prices lines 21-84) over the
per-ticker frames of one download: tickers absent from the response
contribute nothing, present tickers contribute their sanitized rows tagged
with the ticker and interval. -/
def normalize_download (frames : String → Option RawFrame)
    (tickers : List String) (interval : String) : List NormRow :=
  flatAll (tickRows frames interval) tickers

/-- Record construction of ingest_stock_prices lines 156-181: each of open,
high, low and adjusted close falls back to close when NaN. -/
def recOf (interval : String) (ingested_at : Int) (r : NormRow) : PriceRec :=
  ⟨r.ts, r.ticker, interval, r.openV.getD r.closeV, r.highV.getD r.closeV,
    r.lowV.getD r.closeV, r.closeV, r.adjV.getD r.closeV, r.volume,
    "yfinance", ingested_at⟩

/-- Seconds per day (`timedelta(days=1)`). -/
def dayS : Int := 86400

/-- One iteration of the window-start loop of ingest_stock_prices lines
115-122: a ticker with a state watermark lowers the running start to
`last_ts - overlap_days` when that is earlier. -/
def earliestStep (store : StateStore) (interval : String) (ovl : Int)
    (earliest : Int) (t : String) : Int :=
  match (get_state store "yfinance" "fact_stock_prices" (t ++ "|" ++ interval)).1 with
  | none => earliest
  | some l =>
    let start := l - ovl * dayS
    if start < earliest then start else earliest

/-- The fetch-window start of one chunk (ingest_stock_prices lines 111-122):
start from `now - default_lookback_days`, and with force off lower it to
`last_ts - overlap_days` for every ticker of the chunk whose state has a
watermark below the current start. -/
def computeEarliest (store : StateStore) (interval : String)
    (chunk : List String) (ingested_at dlb ovl : Int) (force : Bool) : Int :=
  let base := ingested_at - dlb * dayS
  if force then base
  else chunk.foldl (earliestStep store interval ovl) base

/-- Largest timestamp of a batch of records (`max(rec[0] for rec in records)`;
the code only evaluates it on nonempty batches). -/
def maxTsOf : List PriceRec → Int
  | [] => 0
  | r :: rs => rs.foldl (fun m x => max m x.ts) r.ts

/-- Accumulator of the chunk loop of ingest_stock_prices. -/
structure PricesAcc where
  total : Nat
  events : List Event
  store : StateStore
deriving DecidableEq

/-- The watermark filter of ingest_stock_prices lines 146-151: with force on
keep all rows, otherwise drop rows at or below the current watermark for the
key (when one exists; the strict `>` comparison of line 151). -/
def sub2For (store : StateStore) (force : Bool) (sub : List NormRow)
    (key : String) : List NormRow :=
  if force then sub
  else
    match (get_state store "yfinance" "fact_stock_prices" key).1 with
    | none => sub
    | some l => sub.filter (fun r => decide (l < r.ts))

/-- The per-ticker insert step of ingest_stock_prices (lines 141-203): select
the ticker's normalized rows, with force off drop the ones at or below the
current watermark, build the records, bulk-insert them and advance the
`ticker|interval` state row to their largest timestamp. -/
def perTicker (interval : String) (ingested_at : Int) (force : Bool)
    (norm : List NormRow) (acc : PricesAcc) (t : String) : PricesAcc :=
  let sub := norm.filter (fun r => r.ticker == t)
  if sub.isEmpty then acc
  else
    let key := t ++ "|" ++ interval
    let sub2 := sub2For acc.store force sub key
    if sub2.isEmpty then acc
    else
      let records := sub2.map (recOf interval ingested_at)
      let newTs := maxTsOf records
      { total := acc.total + records.length,
        events := acc.events ++
          [Event.insertPrices key records,
           Event.setStateEv "yfinance" "fact_stock_prices" key (some newTs) none],
        store := set_state acc.store "yfinance" "fact_stock_prices" key (some newTs) none }

/-- One chunk of ingest_stock_prices (lines 110-203): compute the window
start from the current state, download, normalize, and when the normalized
frame is nonempty run the per-ticker insert loop. -/
def perChunk (download : List String → Int → (String → Option RawFrame))
    (interval : String) (ingested_at dlb ovl : Int) (force : Bool)
    (acc : PricesAcc) (chunk : List String) : PricesAcc :=
  let earliest := computeEarliest acc.store interval chunk ingested_at dlb ovl force
  let frames := download chunk earliest
  let norm := normalize_download frames chunk interval
  let acc1 := { acc with events := acc.events ++ [Event.downloadChunk chunk earliest] }
  if norm.isEmpty then acc1
  else chunk.foldl (perTicker interval ingested_at force norm) acc1

/-- Ticker normalization of ingest_stock_prices line 102: strip, and drop
entries that strip to empty or to "nan". -/
def cleanTickers (tickers : List String) : List String :=
  tickers.filterMap (fun t0 =>
    let t := t0.pyStrip
    if t == "" || t == "nan" then none else some t)

/-- The `chunked` generator (lines 104-106), with the list length as fuel;
a zero chunk size raises in Python and yields no chunks here. -/
def chunkedAux : Nat → List String → Nat → List (List String)
  | 0, _, _ => []
  | _, [], _ => []
  | fuel + 1, x :: xs, n =>
    if n == 0 then []
    else (x :: xs).take n :: chunkedAux fuel ((x :: xs).drop n) n

def chunked (l : List String) (n : Nat) : List (List String) :=
  chunkedAux l.length l n

/-- ingest_stock_prices (src/backend/app/ingest/ingest_fact_stock_prices.py):
clean the ticker list, then fold the chunk loop. The download collaborator
maps a chunk and a window start to the per-ticker frames of the response. -/
def ingest_stock_prices (download : List String → Int → (String → Option RawFrame))
    (tickers : List String) (interval : String) (ovl dlb : Int)
    (chunk_size : Nat) (force : Bool) (store : StateStore) (ingested_at : Int) :
    Nat × List Event × StateStore :=
  let tks := cleanTickers tickers
  let acc := (chunked tks chunk_size).foldl
    (perChunk download interval ingested_at dlb ovl force) ⟨0, [], store⟩
  (acc.total, acc.events, acc.store)

theorem foldl_preserve {α β : Type} (P : β → Prop) (step : β → α → β)
    (h : ∀ acc x, P acc → P (step acc x)) :
    ∀ (l : List α) (acc : β), P acc → P (l.foldl step acc) := by
  intro l
  induction l with
  | nil => intro acc hp; exact hp
  | cons x xs ih => intro acc hp; exact ih (step acc x) (h acc x hp)

theorem foldl_rel {α β γ : Type} (R : β → γ → Prop) (f : β → α → β)
    (g : γ → α → γ) (h : ∀ b c x, R b c → R (f b x) (g c x)) :
    ∀ (l : List α) (b : β) (c : γ), R b c → R (l.foldl f b) (l.foldl g c) := by
  intro l
  induction l with
  | nil => intro b c hr; exact hr
  | cons x xs ih => intro b c hr; exact ih (f b x) (g c x) (h b c x hr)

/-- Events of the market-cap run that concern one ticker key. -/
def evAboutCap (t : String) : Event → Bool
  | .fetchTickerInfo u => u == t
  | .logFail u => u == t
  | .setStateEv _ _ k _ _ => k == t
  | .insertCap rows => rows.any (fun r => r.ticker == t)
  | _ => false

/-- Events that write rows or state (bulk inserts and state writes). -/
def writeFree (evs : List Event) : Bool :=
  evs.all fun e =>
    match e with
    | .insertDim _ => false
    | .insertMembership _ => false
    | .insertCap _ => false
    | .insertPrices _ _ => false
    | .setStateEv _ _ _ _ _ => false
    | _ => true

/-- With force off and the snapshot gate firing for the ALL key, the
dimension job is a pure no-op. -/
theorem dim_skip (fetch : SectorFetch) (store : StateStore)
    (sectors : List String) (asof ingested_at : Int)
    (h : skipGate (get_state store "yfinance" "dim_industry" "ALL").2 asof = true) :
    ingest_dim_industry fetch store sectors asof ingested_at false = (0, [], store) := by
  rw [ingest_dim_industry]
  simp [h]

theorem mem_skip (dimCatalog : List (String × String × String))
    (fetchTop : String → Except String (Option MemTable)) (store : StateStore)
    (asof ingested_at : Int)
    (h : skipGate (get_state store "yfinance" "industry_membership" "ALL").2 asof = true) :
    ingest_membership dimCatalog fetchTop store asof ingested_at false = (0, [], store) := by
  rw [ingest_membership]
  simp [h]

/-- After any run of the dimension job, a second non-forced run for the same
as-of date is skipped as a pure no-op. -/
theorem dim_second_run (fetch fetch2 : SectorFetch) (store : StateStore)
    (sectors sectors2 : List String) (asof ia ia2 : Int) (force1 : Bool)
    (hwf : WF store) :
    ingest_dim_industry fetch2
      (ingest_dim_industry fetch store sectors asof ia force1).2.2
      sectors2 asof ia2 false =
    (0, [], (ingest_dim_industry fetch store sectors asof ia force1).2.2) := by
  by_cases hskip :
      (!force1 && skipGate (get_state store "yfinance" "dim_industry" "ALL").2 asof) = true
  · have h1 : ingest_dim_industry fetch store sectors asof ia force1 = (0, [], store) := by
      rw [ingest_dim_industry, if_pos hskip]
    rw [h1]
    apply dim_skip
    rcases Bool.and_eq_true_iff.mp hskip with ⟨_, h2⟩
    exact h2
  · have h1 : (ingest_dim_industry fetch store sectors asof ia force1).2.2 =
        set_state store "yfinance" "dim_industry" "ALL" none (some asof) := by
      rw [ingest_dim_industry, if_neg hskip]
    rw [h1]
    apply dim_skip
    rw [get_state_set_state store hwf]
    simp [skipGate]

theorem mem_second_run (dc dc2 : List (String × String × String))
    (ft ft2 : String → Except String (Option MemTable)) (store : StateStore)
    (asof ia ia2 : Int) (force1 : Bool) (hwf : WF store) :
    ingest_membership dc2 ft2
      (ingest_membership dc ft store asof ia force1).2.2 asof ia2 false =
    (0, [], (ingest_membership dc ft store asof ia force1).2.2) := by
  by_cases hskip :
      (!force1 && skipGate (get_state store "yfinance" "industry_membership" "ALL").2 asof) = true
  · have h1 : ingest_membership dc ft store asof ia force1 = (0, [], store) := by
      rw [ingest_membership, if_pos hskip]
    rw [h1]
    apply mem_skip
    rcases Bool.and_eq_true_iff.mp hskip with ⟨_, h2⟩
    exact h2
  · have h1 : (ingest_membership dc ft store asof ia force1).2.2 =
        set_state store "yfinance" "industry_membership" "ALL" none (some asof) := by
      rw [ingest_membership, if_neg hskip]
    rw [h1]
    apply mem_skip
    rw [get_state_set_state store hwf]
    simp [skipGate]

/-- The per-ticker exception boundary of the market-cap job yields no row:
the fetch raises, or the info carries no market cap. -/
def capFails (f : String → Except String TickerInfo) (t : String) : Prop :=
  match f t with
  | .error _ => True
  | .ok info => info.marketCap = none

/-- Skip-or-fail: the ticker is gated out by the snapshot policy against the
given store, or its fetch yields no row. After a run, every cleaned ticker
satisfies this, which is what makes a repeat run a no-op. -/
def capSoF (f : String → Except String TickerInfo) (st : StateStore)
    (asof : Int) (t : String) : Prop :=
  skipGate (get_state st "yfinance" "fact_market_cap" t).2 asof = true ∨ capFails f t

theorem capStep_store (f : String → Except String TickerInfo)
    (asof ia : Int) (force : Bool) (acc : CapAcc) (u0 : String) :
    (capStep f asof ia force acc u0).store = acc.store ∨
    (capStep f asof ia force acc u0).store =
      set_state acc.store "yfinance" "fact_market_cap" u0.pyStrip none (some asof) := by
  rw [capStep]
  split
  · exact Or.inl rfl
  · split
    · exact Or.inl rfl
    · split
      · exact Or.inl rfl
      · split
        · exact Or.inl rfl
        · exact Or.inr rfl

theorem capStep_WF (f : String → Except String TickerInfo) (asof ia : Int)
    (force : Bool) (acc : CapAcc) (u0 : String) (hwf : WF acc.store) :
    WF (capStep f asof ia force acc u0).store := by
  rcases capStep_store f asof ia force acc u0 with h | h
  · rw [h]; exact hwf
  · rw [h]; exact WF_set_state acc.store hwf _ _ _ _ _

theorem capStep_get_other (f : String → Except String TickerInfo)
    (asof ia : Int) (force : Bool) (acc : CapAcc) (u0 : String)
    (hwf : WF acc.store) (x : String) (hne : u0.pyStrip ≠ x) :
    get_state (capStep f asof ia force acc u0).store "yfinance" "fact_market_cap" x =
      get_state acc.store "yfinance" "fact_market_cap" x := by
  rcases capStep_store f asof ia force acc u0 with h | h
  · rw [h]
  · rw [h, get_state_set_state acc.store hwf]
    have hb : (u0.pyStrip == x) = false := by
      simp [hne]
    simp [hb]

theorem capStep_gate_stable (f : String → Except String TickerInfo)
    (asof ia : Int) (force : Bool) (acc : CapAcc) (u0 : String)
    (hwf : WF acc.store) (x : String)
    (h : skipGate (get_state acc.store "yfinance" "fact_market_cap" x).2 asof = true) :
    skipGate (get_state (capStep f asof ia force acc u0).store
      "yfinance" "fact_market_cap" x).2 asof = true := by
  rcases capStep_store f asof ia force acc u0 with hs | hs
  · rw [hs]; exact h
  · rw [hs, get_state_set_state acc.store hwf]
    by_cases hc : ("yfinance" == "yfinance" && "fact_market_cap" == "fact_market_cap"
        && u0.pyStrip == x) = true
    · rw [if_pos hc]
      simp [skipGate]
    · rw [if_neg hc]
      exact h

theorem capSoF_step (f : String → Except String TickerInfo) (asof ia : Int)
    (force : Bool) (acc : CapAcc) (u0 : String) (hwf : WF acc.store)
    (x : String) (h : capSoF f acc.store asof x) :
    capSoF f (capStep f asof ia force acc u0).store asof x := by
  rcases h with h | h
  · exact Or.inl (capStep_gate_stable f asof ia force acc u0 hwf x h)
  · exact Or.inr h

theorem capSoF_estab (f : String → Except String TickerInfo) (asof ia : Int)
    (force : Bool) (acc : CapAcc) (u0 : String) (hwf : WF acc.store)
    (h1 : (u0.pyStrip == "" || u0.pyStrip == "nan") = false) :
    capSoF f (capStep f asof ia force acc u0).store asof u0.pyStrip := by
  rw [capStep]
  simp only [h1]
  rw [if_neg (by simp)]
  by_cases hg : (!force && skipGate
      (get_state acc.store "yfinance" "fact_market_cap" u0.pyStrip).2 asof) = true
  · rw [if_pos hg]
    exact Or.inl (Bool.and_eq_true_iff.mp hg).2
  · rw [if_neg hg]
    cases hf : f u0.pyStrip with
    | error e =>
      refine Or.inr ?_
      rw [capFails, hf]
      trivial
    | ok info =>
      cases hmc : info.marketCap with
      | none =>
        refine Or.inr ?_
        rw [capFails, hf]
        exact hmc
      | some mc =>
        refine Or.inl ?_
        simp only [hmc]
        rw [get_state_set_state acc.store hwf]
        simp [skipGate]

theorem capFold_WF (f : String → Except String TickerInfo) (asof ia : Int)
    (force : Bool) (l : List String) (acc : CapAcc) (hwf : WF acc.store) :
    WF ((l.foldl (capStep f asof ia force) acc).store) :=
  foldl_preserve (fun a => WF a.store) _
    (fun a x h => capStep_WF f asof ia force a x h) l acc hwf

theorem capFold_SoF_pers (f : String → Except String TickerInfo) (asof ia : Int)
    (force : Bool) (l : List String) (acc : CapAcc) (x : String)
    (hwf : WF acc.store) (h : capSoF f acc.store asof x) :
    capSoF f ((l.foldl (capStep f asof ia force) acc).store) asof x :=
  (foldl_preserve (fun a => WF a.store ∧ capSoF f a.store asof x) _
    (fun a u hp => ⟨capStep_WF f asof ia force a u hp.1,
      capSoF_step f asof ia force a u hp.1 x hp.2⟩) l acc ⟨hwf, h⟩).2

theorem capFold_SoF_all (f : String → Except String TickerInfo) (asof ia : Int)
    (force : Bool) :
    ∀ (l : List String) (acc : CapAcc), WF acc.store →
      ∀ u0 ∈ l, (u0.pyStrip == "" || u0.pyStrip == "nan") = false →
        capSoF f ((l.foldl (capStep f asof ia force) acc).store) asof u0.pyStrip := by
  intro l
  induction l with
  | nil =>
    intro acc _ u0 hu
    exact absurd hu (List.not_mem_nil u0)
  | cons x xs ih =>
    intro acc hwf u0 hu hclean
    rcases List.mem_cons.mp hu with he | hm
    · subst he
      rw [List.foldl_cons]
      exact capFold_SoF_pers f asof ia force xs _ u0.pyStrip
        (capStep_WF f asof ia force acc u0 hwf)
        (capSoF_estab f asof ia force acc u0 hwf hclean)
    · rw [List.foldl_cons]
      exact ih (capStep f asof ia force acc x)
        (capStep_WF f asof ia force acc x hwf) u0 hm hclean

theorem CapAcc_eta (acc : CapAcc) :
    acc = ⟨acc.total, acc.batch, acc.events ++ [], acc.store⟩ := by
  cases acc
  simp

theorem writeFree_append (l1 l2 : List Event) :
    writeFree (l1 ++ l2) = (writeFree l1 && writeFree l2) :=
  List.all_append

theorem capStep_skip_same (f : String → Except String TickerInfo)
    (asof ia : Int) (acc : CapAcc) (u0 : String)
    (hg : skipGate (get_state acc.store "yfinance" "fact_market_cap" u0.pyStrip).2 asof = true) :
    capStep f asof ia false acc u0 = acc := by
  rw [capStep]
  by_cases hc : (u0.pyStrip == "" || u0.pyStrip == "nan") = true
  · rw [if_pos hc]
  · rw [if_neg hc, if_pos (by simp [hg])]

theorem capStep_noop (f : String → Except String TickerInfo) (asof ia : Int)
    (acc : CapAcc) (x : String)
    (h : (x.pyStrip == "" || x.pyStrip == "nan") = true ∨ capSoF f acc.store asof x.pyStrip) :
    ∃ d, capStep f asof ia false acc x =
      ⟨acc.total, acc.batch, acc.events ++ d, acc.store⟩ ∧ writeFree d = true := by
  by_cases hc : (x.pyStrip == "" || x.pyStrip == "nan") = true
  · refine ⟨[], ?_, rfl⟩
    rw [capStep, if_pos hc]
    exact CapAcc_eta acc
  · rcases h with h | h
    · exact absurd h hc
    · rcases h with hg | hf
      · refine ⟨[], ?_, rfl⟩
        rw [capStep_skip_same f asof ia acc x hg]
        exact CapAcc_eta acc
      · by_cases hg2 : skipGate
            (get_state acc.store "yfinance" "fact_market_cap" x.pyStrip).2 asof = true
        · refine ⟨[], ?_, rfl⟩
          rw [capStep_skip_same f asof ia acc x hg2]
          exact CapAcc_eta acc
        · rw [capStep, if_neg hc, if_neg (by simp [hg2])]
          rw [capFails] at hf
          cases hfx : f x.pyStrip with
          | error e =>
            exact ⟨[Event.fetchTickerInfo x.pyStrip, Event.logFail x.pyStrip], rfl, rfl⟩
          | ok info =>
            rw [hfx] at hf
            cases hmc : info.marketCap with
            | none =>
              simp only [hmc]
              exact ⟨[Event.fetchTickerInfo x.pyStrip], rfl, rfl⟩
            | some mc =>
              have hf2 : info.marketCap = none := hf
              rw [hmc] at hf2
              cases hf2

theorem capFold_noop (f : String → Except String TickerInfo) (asof ia : Int) :
    ∀ (l : List String) (acc : CapAcc),
      (∀ u0 ∈ l, (u0.pyStrip == "" || u0.pyStrip == "nan") = true ∨
        capSoF f acc.store asof u0.pyStrip) →
      ∃ extra, l.foldl (capStep f asof ia false) acc =
        ⟨acc.total, acc.batch, acc.events ++ extra, acc.store⟩ ∧
        writeFree extra = true := by
  intro l
  induction l with
  | nil =>
    intro acc _
    exact ⟨[], CapAcc_eta acc, rfl⟩
  | cons x xs ih =>
    intro acc h
    rcases capStep_noop f asof ia acc x (h x (List.mem_cons_self x xs)) with ⟨d, hd, hdw⟩
    rw [List.foldl_cons, hd]
    rcases ih ⟨acc.total, acc.batch, acc.events ++ d, acc.store⟩
        (fun u0 hu => h u0 (List.mem_cons_of_mem x hu)) with ⟨extra, he, hew⟩
    refine ⟨d ++ extra, ?_, ?_⟩
    · rw [he]
      simp [List.append_assoc]
    · rw [writeFree_append, hdw, hew]
      rfl

theorem capStep_delta (f : String → Except String TickerInfo) (asof ia : Int)
    (force : Bool) (acc : CapAcc) (u0 : String) :
    ∃ d b, (capStep f asof ia force acc u0).events = acc.events ++ d ∧
      (capStep f asof ia force acc u0).batch = acc.batch ++ b ∧
      ∀ x, u0.pyStrip ≠ x →
        d.all (fun e => !(evAboutCap x e)) = true ∧
        b.all (fun r => !(r.ticker == x)) = true := by
  rw [capStep]
  split
  · exact ⟨[], [], by simp, by simp, fun x hx => ⟨rfl, rfl⟩⟩
  · split
    · exact ⟨[], [], by simp, by simp, fun x hx => ⟨rfl, rfl⟩⟩
    · split
      · refine ⟨[Event.fetchTickerInfo u0.pyStrip, Event.logFail u0.pyStrip], [],
          rfl, by simp, ?_⟩
        intro x hx
        refine ⟨?_, rfl⟩
        simp [evAboutCap, hx]
      · split
        · refine ⟨[Event.fetchTickerInfo u0.pyStrip], [], rfl, by simp, ?_⟩
          intro x hx
          refine ⟨?_, rfl⟩
          simp [evAboutCap, hx]
        · refine ⟨_, _, rfl, rfl, ?_⟩
          intro x hx
          constructor
          · simp [evAboutCap, hx]
          · simp [hx]

theorem capFold_untouched (f : String → Except String TickerInfo)
    (asof ia : Int) (store0 : StateStore) (tstr : String)
    (hg : skipGate (get_state store0 "yfinance" "fact_market_cap" tstr).2 asof = true) :
    ∀ (l : List String) (acc : CapAcc),
      WF acc.store →
      get_state acc.store "yfinance" "fact_market_cap" tstr =
        get_state store0 "yfinance" "fact_market_cap" tstr →
      acc.events.all (fun e => !(evAboutCap tstr e)) = true →
      acc.batch.all (fun r => !(r.ticker == tstr)) = true →
      WF (l.foldl (capStep f asof ia false) acc).store ∧
      get_state (l.foldl (capStep f asof ia false) acc).store
        "yfinance" "fact_market_cap" tstr =
        get_state store0 "yfinance" "fact_market_cap" tstr ∧
      (l.foldl (capStep f asof ia false) acc).events.all
        (fun e => !(evAboutCap tstr e)) = true ∧
      (l.foldl (capStep f asof ia false) acc).batch.all
        (fun r => !(r.ticker == tstr)) = true := by
  intro l
  induction l with
  | nil =>
    intro acc hwf hgs hev hb
    exact ⟨hwf, hgs, hev, hb⟩
  | cons x xs ih =>
    intro acc hwf hgs hev hb
    rw [List.foldl_cons]
    by_cases hx : x.pyStrip = tstr
    · have hstep : capStep f asof ia false acc x = acc := by
        apply capStep_skip_same
        rw [hx, hgs]
        exact hg
      rw [hstep]
      exact ih acc hwf hgs hev hb
    · rcases capStep_delta f asof ia false acc x with ⟨d, b, hde, hdb, hdall⟩
      rcases hdall tstr hx with ⟨hdev, hdbt⟩
      refine ih (capStep f asof ia false acc x)
        (capStep_WF f asof ia false acc x hwf) ?_ ?_ ?_
      · rw [capStep_get_other f asof ia false acc x hwf tstr hx]
        exact hgs
      · rw [hde, List.all_append, hev, hdev]
        rfl
      · rw [hdb, List.all_append, hb, hdbt]
        rfl

theorem any_eq_false_of_all_not {α : Type} (l : List α) (p : α → Bool)
    (h : l.all (fun a => !(p a)) = true) : l.any p = false := by
  cases hb : l.any p
  · rfl
  · rcases List.any_eq_true.mp hb with ⟨a, hma, hpa⟩
    have h2 := List.all_eq_true.mp h a hma
    rw [hpa] at h2
    cases h2

/-- Claim C1: for the snapshot-policy jobs (industry dimension, industry
membership, market cap) with force off, a key whose stored last as-of date is
at or past the requested one is skipped entirely (no fetch, no canonical
rows, no new state row for that key), and a repeat invocation with the same
as-of date and no force flag performs zero additional writes and returns 0. -/
theorem C1_snapshot_skip_and_second_run :
    (∀ (fetch : SectorFetch) (store : StateStore) (sectors : List String) (asof ia : Int),
      skipGate (get_state store "yfinance" "dim_industry" "ALL").2 asof = true →
      ingest_dim_industry fetch store sectors asof ia false = (0, [], store)) ∧
    (∀ (dc : List (String × String × String))
        (ft : String → Except String (Option MemTable))
        (store : StateStore) (asof ia : Int),
      skipGate (get_state store "yfinance" "industry_membership" "ALL").2 asof = true →
      ingest_membership dc ft store asof ia false = (0, [], store)) ∧
    (∀ (f : String → Except String TickerInfo) (store : StateStore)
        (tickers : List String) (asof ia : Int) (tstr : String),
      WF store →
      skipGate (get_state store "yfinance" "fact_market_cap" tstr).2 asof = true →
      (ingest_market_cap f store tickers asof ia false).2.1.all
          (fun e => !(evAboutCap tstr e)) = true ∧
      get_state (ingest_market_cap f store tickers asof ia false).2.2
          "yfinance" "fact_market_cap" tstr =
        get_state store "yfinance" "fact_market_cap" tstr) ∧
    (∀ (fetch fetch2 : SectorFetch) (store : StateStore)
        (sectors sectors2 : List String) (asof ia ia2 : Int) (force1 : Bool),
      WF store →
      ingest_dim_industry fetch2
        (ingest_dim_industry fetch store sectors asof ia force1).2.2
        sectors2 asof ia2 false =
      (0, [], (ingest_dim_industry fetch store sectors asof ia force1).2.2)) ∧
    (∀ (dc dc2 : List (String × String × String))
        (ft ft2 : String → Except String (Option MemTable)) (store : StateStore)
        (asof ia ia2 : Int) (force1 : Bool),
      WF store →
      ingest_membership dc2 ft2
        (ingest_membership dc ft store asof ia force1).2.2 asof ia2 false =
      (0, [], (ingest_membership dc ft store asof ia force1).2.2)) ∧
    (∀ (f : String → Except String TickerInfo) (store : StateStore)
        (tickers : List String) (asof ia ia2 : Int),
      WF store →
      (ingest_market_cap f (ingest_market_cap f store tickers asof ia false).2.2
          tickers asof ia2 false).1 = 0 ∧
      (ingest_market_cap f (ingest_market_cap f store tickers asof ia false).2.2
          tickers asof ia2 false).2.2 =
        (ingest_market_cap f store tickers asof ia false).2.2 ∧
      writeFree (ingest_market_cap f
          (ingest_market_cap f store tickers asof ia false).2.2
          tickers asof ia2 false).2.1 = true) := by
  refine ⟨?_, ?_, ?_, ?_, ?_, ?_⟩
  · intro fetch store sectors asof ia h
    exact dim_skip fetch store sectors asof ia h
  · intro dc ft store asof ia h
    exact mem_skip dc ft store asof ia h
  · intro f store tickers asof ia tstr hwf hg
    have H := capFold_untouched f asof ia store tstr hg tickers
      ⟨0, [], [], store⟩ hwf rfl rfl rfl
    constructor
    · show ((tickers.foldl (capStep f asof ia false) ⟨0, [], [], store⟩).events ++
        _).all _ = true
      rw [List.all_append, H.2.2.1]
      by_cases hb : (tickers.foldl (capStep f asof ia false)
          ⟨0, [], [], store⟩).batch.isEmpty = true
      · rw [if_pos hb]
        rfl
      · rw [if_neg hb]
        have := any_eq_false_of_all_not _ _ H.2.2.2
        simp [evAboutCap, this]
    · exact H.2.1
  · intro fetch fetch2 store sectors sectors2 asof ia ia2 force1 hwf
    exact dim_second_run fetch fetch2 store sectors sectors2 asof ia ia2 force1 hwf
  · intro dc dc2 ft ft2 store asof ia ia2 force1 hwf
    exact mem_second_run dc dc2 ft ft2 store asof ia ia2 force1 hwf
  · intro f store tickers asof ia ia2 hwf
    have hwf1 : WF ((tickers.foldl (capStep f asof ia false)
        ⟨0, [], [], store⟩).store) :=
      capFold_WF f asof ia false tickers ⟨0, [], [], store⟩ hwf
    have hsof : ∀ u0 ∈ tickers, (u0.pyStrip == "" || u0.pyStrip == "nan") = true ∨
        capSoF f ((tickers.foldl (capStep f asof ia false)
          ⟨0, [], [], store⟩).store) asof u0.pyStrip := by
      intro u0 hu
      by_cases hc : (u0.pyStrip == "" || u0.pyStrip == "nan") = true
      · exact Or.inl hc
      · exact Or.inr (capFold_SoF_all f asof ia false tickers
          ⟨0, [], [], store⟩ hwf u0 hu (by simpa using hc))
    rcases capFold_noop f asof ia2 tickers
      ⟨0, [], [], (tickers.foldl (capStep f asof ia false)
        ⟨0, [], [], store⟩).store⟩ (fun u0 hu => hsof u0 hu) with ⟨extra, heq, hwr⟩
    have hst : (ingest_market_cap f store tickers asof ia false).2.2 =
        (tickers.foldl (capStep f asof ia false) ⟨0, [], [], store⟩).store := rfl
    refine ⟨?_, ?_, ?_⟩
    · show (tickers.foldl (capStep f asof ia2 false)
        ⟨0, [], [], (ingest_market_cap f store tickers asof ia false).2.2⟩).total = 0
      rw [hst, heq]
    · show (tickers.foldl (capStep f asof ia2 false)
          ⟨0, [], [], (ingest_market_cap f store tickers asof ia false).2.2⟩).store =
        (ingest_market_cap f store tickers asof ia false).2.2
      rw [hst, heq]
    · show writeFree ((tickers.foldl (capStep f asof ia2 false)
        ⟨0, [], [], (ingest_market_cap f store tickers asof ia false).2.2⟩).events ++
          (if (tickers.foldl (capStep f asof ia2 false)
              ⟨0, [], [], (ingest_market_cap f store tickers asof ia false).2.2⟩).batch.isEmpty
            then [] else [Event.insertCap ((tickers.foldl (capStep f asof ia2 false)
              ⟨0, [], [], (ingest_market_cap f store
                tickers asof ia false).2.2⟩).batch)])) = true
      rw [hst, heq]
      simpa using hwr

def dimStore5 : StateStore := [⟨"yfinance", "dim_industry", "ALL", none, some 5, 0⟩]

def fetchFailAll : SectorFetch := fun _ => .error "boom"

def capInfoTen : String → Except String TickerInfo :=
  fun _ => .ok ⟨some 10, some "USD"⟩

/-- Witness for C1: a dimension run against a store already at the as-of date
is a pure no-op, and a repeated market-cap run writes nothing and returns 0. -/
theorem C1_witness :
    ingest_dim_industry fetchFailAll dimStore5 ["technology"] 5 6 false =
      (0, [], dimStore5) ∧
    ((ingest_market_cap capInfoTen
        (ingest_market_cap capInfoTen [] ["A"] 5 6 false).2.2 ["A"] 5 7 false).1 = 0 ∧
      (ingest_market_cap capInfoTen
        (ingest_market_cap capInfoTen [] ["A"] 5 6 false).2.2 ["A"] 5 7 false).2.2 =
        (ingest_market_cap capInfoTen [] ["A"] 5 6 false).2.2 ∧
      writeFree (ingest_market_cap capInfoTen
        (ingest_market_cap capInfoTen [] ["A"] 5 6 false).2.2
        ["A"] 5 7 false).2.1 = true) :=
  ⟨C1_snapshot_skip_and_second_run.1 fetchFailAll dimStore5 ["technology"] 5 6
      (by decide),
   C1_snapshot_skip_and_second_run.2.2.2.2.2 capInfoTen [] ["A"] 5 6 7 WF_nil⟩

theorem sectorRows_error (fetch : SectorFetch) (asof ia : Int) (s e : String)
    (he : fetch s = .error e) : sectorRows fetch asof ia s = [] := by
  rw [sectorRows, he]

theorem memRowsOf_error (ft : String → Except String (Option MemTable))
    (asof ia : Int) (entry : String × String × String) (e : String)
    (he : ft entry.2.1 = .error e) : memRowsOf ft asof ia entry = [] := by
  rw [memRowsOf, he]

theorem flatAll_nil_of_all {α β : Type} (f : α → List β) :
    ∀ (l : List α), (∀ x ∈ l, f x = []) → flatAll f l = [] := by
  intro l
  induction l with
  | nil => intro _; rfl
  | cons x xs ih =>
    intro h
    rw [flatAll, h x (List.mem_cons_self x xs), ih (fun y hy => h y (List.mem_cons_of_mem x hy))]
    rfl

/-- Claim C10: a non-skipped run of the industry-dimension or membership job
unconditionally appends the ALL state row for the requested as-of date — in
particular when every per-entity fetch failed and zero canonical rows were
written — and the next non-forced run for the same as-of date is then a
skipped no-op. -/
theorem C10_unconditional_state_row :
    (∀ (fetch : SectorFetch) (store : StateStore) (sectors : List String)
        (asof ia : Int) (force : Bool),
      (!force && skipGate (get_state store "yfinance" "dim_industry" "ALL").2 asof) = false →
      (∃ evs, (ingest_dim_industry fetch store sectors asof ia force).2.1 =
        evs ++ [Event.setStateEv "yfinance" "dim_industry" "ALL" none (some asof)]) ∧
      (ingest_dim_industry fetch store sectors asof ia force).2.2 =
        set_state store "yfinance" "dim_industry" "ALL" none (some asof)) ∧
    (∀ (fetch : SectorFetch) (store : StateStore) (sectors : List String)
        (asof ia : Int) (force : Bool),
      (∀ s, ∃ e, fetch s = .error e) →
      (!force && skipGate (get_state store "yfinance" "dim_industry" "ALL").2 asof) = false →
      ingest_dim_industry fetch store sectors asof ia force =
        (0, sectors.map Event.fetchSector ++
          [Event.setStateEv "yfinance" "dim_industry" "ALL" none (some asof)],
         set_state store "yfinance" "dim_industry" "ALL" none (some asof))) ∧
    (∀ (dc : List (String × String × String))
        (ft : String → Except String (Option MemTable)) (store : StateStore)
        (asof ia : Int) (force : Bool),
      (!force && skipGate (get_state store "yfinance" "industry_membership" "ALL").2 asof)
        = false →
      (∃ evs, (ingest_membership dc ft store asof ia force).2.1 =
        evs ++ [Event.setStateEv "yfinance" "industry_membership" "ALL" none (some asof)]) ∧
      (ingest_membership dc ft store asof ia force).2.2 =
        set_state store "yfinance" "industry_membership" "ALL" none (some asof)) ∧
    (∀ (dc : List (String × String × String))
        (ft : String → Except String (Option MemTable)) (store : StateStore)
        (asof ia : Int) (force : Bool),
      (∀ k, ∃ e, ft k = .error e) →
      (!force && skipGate (get_state store "yfinance" "industry_membership" "ALL").2 asof)
        = false →
      ingest_membership dc ft store asof ia force =
        (0, dc.map (fun entry => Event.fetchIndustry entry.2.1) ++
          [Event.setStateEv "yfinance" "industry_membership" "ALL" none (some asof)],
         set_state store "yfinance" "industry_membership" "ALL" none (some asof))) ∧
    (∀ (fetch fetch2 : SectorFetch) (store : StateStore)
        (sectors sectors2 : List String) (asof ia ia2 : Int) (force1 : Bool),
      WF store →
      ingest_dim_industry fetch2
        (ingest_dim_industry fetch store sectors asof ia force1).2.2
        sectors2 asof ia2 false =
      (0, [], (ingest_dim_industry fetch store sectors asof ia force1).2.2)) ∧
    (∀ (dc dc2 : List (String × String × String))
        (ft ft2 : String → Except String (Option MemTable)) (store : StateStore)
        (asof ia ia2 : Int) (force1 : Bool),
      WF store →
      ingest_membership dc2 ft2
        (ingest_membership dc ft store asof ia force1).2.2 asof ia2 false =
      (0, [], (ingest_membership dc ft store asof ia force1).2.2)) := by
  refine ⟨?_, ?_, ?_, ?_, ?_, ?_⟩
  · intro fetch store sectors asof ia force h
    rw [ingest_dim_industry, if_neg (by simp [h])]
    exact ⟨⟨_, rfl⟩, rfl⟩
  · intro fetch store sectors asof ia force hfail h
    have hrows : flatAll (sectorRows fetch asof ia) sectors = [] := by
      apply flatAll_nil_of_all
      intro s _
      rcases hfail s with ⟨e, he⟩
      exact sectorRows_error fetch asof ia s e he
    rw [ingest_dim_industry, if_neg (by simp [h]), hrows]
    simp
  · intro dc ft store asof ia force h
    rw [ingest_membership, if_neg (by simp [h])]
    exact ⟨⟨_, rfl⟩, rfl⟩
  · intro dc ft store asof ia force hfail h
    have hrows : flatAll (memRowsOf ft asof ia) dc = [] := by
      apply flatAll_nil_of_all
      intro entry _
      rcases hfail entry.2.1 with ⟨e, he⟩
      exact memRowsOf_error ft asof ia entry e he
    rw [ingest_membership, if_neg (by simp [h]), hrows]
    simp
  · intro fetch fetch2 store sectors sectors2 asof ia ia2 force1 hwf
    exact dim_second_run fetch fetch2 store sectors sectors2 asof ia ia2 force1 hwf
  · intro dc dc2 ft ft2 store asof ia ia2 force1 hwf
    exact mem_second_run dc dc2 ft ft2 store asof ia ia2 force1 hwf

/-- Witness for C10: with every sector fetch failing against an empty store,
the dimension run writes zero canonical rows yet appends the ALL state row,
and the follow-up non-forced run for the same as-of date is skipped. -/
theorem C10_witness :
    ingest_dim_industry fetchFailAll [] ["energy", "utilities"] 9 9 false =
      (0, [Event.fetchSector "energy", Event.fetchSector "utilities",
        Event.setStateEv "yfinance" "dim_industry" "ALL" none (some 9)],
       set_state [] "yfinance" "dim_industry" "ALL" none (some 9)) ∧
    ingest_dim_industry fetchFailAll
      (ingest_dim_industry fetchFailAll [] ["energy", "utilities"] 9 9 false).2.2
      ["energy", "utilities"] 9 10 false =
    (0, [], (ingest_dim_industry fetchFailAll [] ["energy", "utilities"] 9 9 false).2.2) :=
  ⟨C10_unconditional_state_row.2.1 fetchFailAll [] ["energy", "utilities"] 9 9 false
      (fun s => ⟨"boom", rfl⟩) (by decide),
   C10_unconditional_state_row.2.2.2.2.1 fetchFailAll fetchFailAll []
      ["energy", "utilities"] ["energy", "utilities"] 9 9 10 false WF_nil⟩

/-- Does the event land canonical rows for the given (target, key)? Used to
phrase "the watermark advance happens only after the bulk write". -/
def insertsFor (ev : Event) (target key : String) : Bool :=
  match ev with
  | .insertDim _ => target == "dim_industry"
  | .insertMembership _ => target == "industry_membership"
  | .insertCap rows => target == "fact_market_cap" && rows.any (fun r => r.ticker == key)
  | .insertPrices k _ => target == "fact_stock_prices" && k == key
  | _ => false

/-- A state write is acceptable at one position of a trace when some earlier
event already landed rows for its (target, key). -/
def stepOKStrong (seen : List Event) (ev : Event) : Bool :=
  match ev with
  | .setStateEv _ tgt k _ _ => seen.any (fun e => insertsFor e tgt k)
  | _ => true

def wmStrongAux (seen : List Event) : List Event → Bool
  | [] => true
  | ev :: rest => stepOKStrong seen ev && wmStrongAux (seen ++ [ev]) rest

/-- Every state write of the trace is preceded by a bulk write for its key. -/
def wmStrong (evs : List Event) : Bool := wmStrongAux [] evs

/-- A state write is acceptable when either no event of the whole trace lands
rows for its (target, key) — the entity had no rows ingested — or some
earlier event does. -/
def stepOK (all seen : List Event) (ev : Event) : Bool :=
  match ev with
  | .setStateEv _ tgt k _ _ =>
    !(all.any fun e => insertsFor e tgt k) || (seen.any fun e => insertsFor e tgt k)
  | _ => true

def wmOKAux (all seen : List Event) : List Event → Bool
  | [] => true
  | ev :: rest => stepOK all seen ev && wmOKAux all (seen ++ [ev]) rest

/-- Claim C5's ordering property over one run trace: for every entity whose
rows are ingested by the run, every state write for that entity's key comes
after a bulk write of its rows. -/
def wmOK (evs : List Event) : Bool := wmOKAux evs [] evs

theorem wmStrongAux_append (seen l1 l2 : List Event) :
    wmStrongAux seen (l1 ++ l2) =
      (wmStrongAux seen l1 && wmStrongAux (seen ++ l1) l2) := by
  induction l1 generalizing seen with
  | nil => simp [wmStrongAux]
  | cons ev rest ih =>
    rw [List.cons_append, wmStrongAux, wmStrongAux, ih (seen ++ [ev])]
    rw [Bool.and_assoc]
    simp [List.append_assoc]

theorem wmOKAux_of_strong (all : List Event) :
    ∀ (l seen : List Event), wmStrongAux seen l = true → wmOKAux all seen l = true := by
  intro l
  induction l with
  | nil => intro seen _; rfl
  | cons ev rest ih =>
    intro seen h
    rcases Bool.and_eq_true_iff.mp h with ⟨h1, h2⟩
    rw [wmOKAux, ih (seen ++ [ev]) h2, Bool.and_true]
    cases ev with
    | setStateEv s tgt k lt la =>
      rw [stepOKStrong] at h1
      rw [stepOK, h1]
      simp
    | fetchSector k => rfl
    | fetchIndustry k => rfl
    | fetchTickerInfo t => rfl
    | downloadChunk c s => rfl
    | insertDim r => rfl
    | insertMembership r => rfl
    | insertCap r => rfl
    | insertPrices k r => rfl
    | logFail e => rfl

/-- Events that are neither bulk inserts nor state writes never violate the
ordering property. -/
def neutralEv (ev : Event) : Bool :=
  match ev with
  | .setStateEv _ _ _ _ _ => false
  | _ => true

theorem stepOK_neutral (all seen : List Event) (ev : Event)
    (h : neutralEv ev = true) : stepOK all seen ev = true := by
  cases ev with
  | setStateEv s tgt k lt la => cases h
  | fetchSector k => rfl
  | fetchIndustry k => rfl
  | fetchTickerInfo t => rfl
  | downloadChunk c s => rfl
  | insertDim r => rfl
  | insertMembership r => rfl
  | insertCap r => rfl
  | insertPrices k r => rfl
  | logFail e => rfl

theorem wmOKAux_neutral (all : List Event) :
    ∀ (l seen rest : List Event), (∀ ev ∈ l, neutralEv ev = true) →
      wmOKAux all seen (l ++ rest) = wmOKAux all (seen ++ l) rest := by
  intro l
  induction l with
  | nil => intro seen rest _; simp
  | cons ev tl ih =>
    intro seen rest h
    rw [List.cons_append, wmOKAux,
      stepOK_neutral all seen ev (h ev (List.mem_cons_self ev tl)), Bool.true_and,
      ih (seen ++ [ev]) rest (fun x hx => h x (List.mem_cons_of_mem ev hx))]
    simp [List.append_assoc]

theorem any_insertsFor_false (l : List Event) (tgt k : String)
    (h : ∀ ev ∈ l, insertsFor ev tgt k = false) :
    l.any (fun e => insertsFor e tgt k) = false := by
  cases hb : l.any (fun e => insertsFor e tgt k)
  · rfl
  · rcases List.any_eq_true.mp hb with ⟨a, hma, hpa⟩
    rw [h a hma] at hpa
    cases hpa

/-- Ordering property for the snapshot jobs' trace shape: neutral events,
then an optional insert batch, then the single state write. -/
theorem wmOK_of_shape (F I : List Event) (s tgt k : String) (lt la : Option Int)
    (hF : ∀ ev ∈ F, neutralEv ev = true) (hI : ∀ ev ∈ I, neutralEv ev = true)
    (hcase : (∀ ev ∈ F ++ I, insertsFor ev tgt k = false) ∨
      I.any (fun e => insertsFor e tgt k) = true) :
    wmOK (F ++ I ++ [Event.setStateEv s tgt k lt la]) = true := by
  rw [wmOK]
  rw [wmOKAux_neutral _ (F ++ I) [] [Event.setStateEv s tgt k lt la]
    (by intro ev hev; rcases List.mem_append.mp hev with h1 | h2
        · exact hF ev h1
        · exact hI ev h2)]
  rw [wmOKAux, wmOKAux, Bool.and_true]
  rcases hcase with hc | hc
  · rw [stepOK]
    have : ((F ++ I) ++ [Event.setStateEv s tgt k lt la]).any
        (fun e => insertsFor e tgt k) = false := by
      apply any_insertsFor_false
      intro ev hev
      rcases List.mem_append.mp hev with h1 | h2
      · exact hc ev h1
      · have : ev = Event.setStateEv s tgt k lt la := by simpa using h2
        rw [this]
        rfl
    rw [this]
    rfl
  · have h2 : ((F ++ I).any fun e => insertsFor e tgt k) = true := by
      rw [List.any_append, hc, Bool.or_true]
    rw [stepOK, List.nil_append, h2, Bool.or_true]

/-- The per-ticker step either leaves the trace unchanged or appends exactly
a bulk insert followed by the state write for the same key. -/
theorem perTicker_events (interval : String) (ia : Int) (force : Bool)
    (norm : List NormRow) (acc : PricesAcc) (t : String) :
    perTicker interval ia force norm acc t = acc ∨
    ∃ recs newTs,
      recs = (sub2For acc.store force (norm.filter (fun r => r.ticker == t))
        (t ++ "|" ++ interval)).map (recOf interval ia) ∧
      recs ≠ [] ∧ newTs = maxTsOf recs ∧
      perTicker interval ia force norm acc t =
        { total := acc.total + recs.length,
          events := acc.events ++
            [Event.insertPrices (t ++ "|" ++ interval) recs,
             Event.setStateEv "yfinance" "fact_stock_prices" (t ++ "|" ++ interval)
               (some newTs) none],
          store := set_state acc.store "yfinance" "fact_stock_prices"
            (t ++ "|" ++ interval) (some newTs) none } := by
  rw [perTicker]
  by_cases h1 : (norm.filter (fun r => r.ticker == t)).isEmpty = true
  · rw [if_pos h1]
    exact Or.inl rfl
  · rw [if_neg h1]
    by_cases h2 : (sub2For acc.store force (norm.filter (fun r => r.ticker == t))
        (t ++ "|" ++ interval)).isEmpty = true
    · rw [if_pos h2]
      exact Or.inl rfl
    · rw [if_neg h2]
      refine Or.inr ⟨_, _, rfl, ?_, rfl, rfl⟩
      intro hcon
      rw [List.map_eq_nil_iff] at hcon
      rw [hcon] at h2
      exact h2 rfl

theorem perTicker_strong (interval : String) (ia : Int) (force : Bool)
    (norm : List NormRow) (acc : PricesAcc) (t : String)
    (h : wmStrong acc.events = true) :
    wmStrong ((perTicker interval ia force norm acc t).events) = true := by
  rcases perTicker_events interval ia force norm acc t with he | ⟨recs, newTs, _, _, _, he⟩
  · rw [he]
    exact h
  · rw [he]
    show wmStrong (acc.events ++ _) = true
    rw [wmStrong, wmStrongAux_append, List.nil_append]
    rw [wmStrong] at h
    rw [h, Bool.true_and]
    rw [wmStrongAux, wmStrongAux, wmStrongAux, Bool.and_true]
    rw [show stepOKStrong acc.events
      (Event.insertPrices (t ++ "|" ++ interval) recs) = true from rfl, Bool.true_and]
    rw [stepOKStrong, List.any_append]
    have hins : ([Event.insertPrices (t ++ "|" ++ interval) recs].any
        (fun e => insertsFor e "fact_stock_prices" (t ++ "|" ++ interval))) = true := by
      simp [insertsFor]
    rw [hins]
    simp

theorem perChunk_strong (download : List String → Int → (String → Option RawFrame))
    (interval : String) (ia dlb ovl : Int) (force : Bool)
    (acc : PricesAcc) (chunk : List String) (h : wmStrong acc.events = true) :
    wmStrong ((perChunk download interval ia dlb ovl force acc chunk).events) = true := by
  rw [perChunk]
  have hdc : wmStrong (acc.events ++ [Event.downloadChunk chunk
      (computeEarliest acc.store interval chunk ia dlb ovl force)]) = true := by
    rw [wmStrong, wmStrongAux_append, List.nil_append]
    rw [wmStrong] at h
    rw [h, Bool.true_and]
    rfl
  split
  · exact hdc
  · exact foldl_preserve (fun a => wmStrong a.events = true) _
      (fun a x hp => perTicker_strong interval ia force _ a x hp) chunk
      { acc with events := acc.events ++ [Event.downloadChunk chunk
          (computeEarliest acc.store interval chunk ia dlb ovl force)] } hdc

/-- No state write appears in the trace suffix. -/
def noSetState (evs : List Event) : Bool :=
  evs.all fun e =>
    match e with
    | .setStateEv _ _ _ _ _ => false
    | _ => true

/-- A market-cap bulk insert admits no later state write. -/
def capInsHeadOK (ev : Event) (rest : List Event) : Bool :=
  match ev with
  | .insertCap _ => noSetState rest
  | _ => true

/-- All state writes of the trace happen before every market-cap bulk
insert — the corrected ordering of the market-cap job. -/
def setBeforeCapInserts : List Event → Bool
  | [] => true
  | ev :: rest => capInsHeadOK ev rest && setBeforeCapInserts rest

/-- No market-cap bulk insert appears in the trace. -/
def noCapInsert (evs : List Event) : Bool :=
  evs.all fun e =>
    match e with
    | .insertCap _ => false
    | _ => true

theorem capStep_noCap (f : String → Except String TickerInfo) (asof ia : Int)
    (force : Bool) (acc : CapAcc) (u0 : String)
    (h : noCapInsert acc.events = true) :
    noCapInsert ((capStep f asof ia force acc u0).events) = true := by
  rw [capStep]
  split
  · exact h
  · split
    · exact h
    · split
      · rw [noCapInsert, List.all_append]
        rw [noCapInsert] at h
        rw [h]
        rfl
      · split
        · rw [noCapInsert, List.all_append]
          rw [noCapInsert] at h
          rw [h]
          rfl
        · rw [noCapInsert, List.all_append]
          rw [noCapInsert] at h
          rw [h]
          rfl

theorem setBefore_of_noCap : ∀ (l : List Event), noCapInsert l = true →
    setBeforeCapInserts l = true := by
  intro l
  induction l with
  | nil => intro _; rfl
  | cons ev rest ih =>
    intro h
    rw [noCapInsert, List.all_cons] at h
    rcases Bool.and_eq_true_iff.mp h with ⟨h1, h2⟩
    rw [setBeforeCapInserts, ih h2, Bool.and_true]
    cases ev with
    | insertCap r => cases h1
    | setStateEv s tgt k lt la => rfl
    | fetchSector k => rfl
    | fetchIndustry k => rfl
    | fetchTickerInfo t => rfl
    | downloadChunk c s => rfl
    | insertDim r => rfl
    | insertMembership r => rfl
    | insertPrices k r => rfl
    | logFail e => rfl

theorem setBefore_append_cap : ∀ (l : List Event) (b : List CapRow),
    noCapInsert l = true →
    setBeforeCapInserts (l ++ [Event.insertCap b]) = true := by
  intro l
  induction l with
  | nil =>
    intro b _
    rfl
  | cons ev rest ih =>
    intro b h
    rw [noCapInsert, List.all_cons] at h
    rcases Bool.and_eq_true_iff.mp h with ⟨h1, h2⟩
    rw [List.cons_append, setBeforeCapInserts, ih b h2, Bool.and_true]
    cases ev with
    | insertCap r => cases h1
    | setStateEv s tgt k lt la => rfl
    | fetchSector k => rfl
    | fetchIndustry k => rfl
    | fetchTickerInfo t => rfl
    | downloadChunk c s => rfl
    | insertDim r => rfl
    | insertMembership r => rfl
    | insertPrices k r => rfl
    | logFail e => rfl

/-- Counterexample to claim C5: a concrete market-cap run writes the ticker's
state row before the bulk insert that lands its canonical row, so the
watermark advance does not happen only after the bulk write. -/
theorem C5_counterexample :
    wmOK (ingest_market_cap capInfoTen [] ["A"] 5 6 false).2.1 = false ∧
    (ingest_market_cap capInfoTen [] ["A"] 5 6 false).2.1 =
      [Event.fetchTickerInfo "A",
       Event.setStateEv "yfinance" "fact_market_cap" "A" none (some 5),
       Event.insertCap [⟨5, "A", 10, "USD", "yfinance_info", 6⟩]] := by
  constructor
  · decide
  · decide

/-- Claim C5 as amended: in the price, industry-dimension and membership jobs
every state write for an entity whose rows were ingested comes after the bulk
write of those rows; in the market-cap job the per-ticker state writes happen
during the loop, before the single batch insert performed after it. -/
theorem C5_watermark_order :
    (∀ (fetch : SectorFetch) (store : StateStore) (sectors : List String)
        (asof ia : Int) (force : Bool),
      wmOK (ingest_dim_industry fetch store sectors asof ia force).2.1 = true) ∧
    (∀ (dc : List (String × String × String))
        (ft : String → Except String (Option MemTable)) (store : StateStore)
        (asof ia : Int) (force : Bool),
      wmOK (ingest_membership dc ft store asof ia force).2.1 = true) ∧
    (∀ (download : List String → Int → (String → Option RawFrame))
        (tickers : List String) (interval : String) (ovl dlb : Int)
        (cs : Nat) (force : Bool) (store : StateStore) (ia : Int),
      wmOK (ingest_stock_prices download tickers interval ovl dlb cs
        force store ia).2.1 = true) ∧
    (∀ (f : String → Except String TickerInfo) (store : StateStore)
        (tickers : List String) (asof ia : Int) (force : Bool),
      setBeforeCapInserts (ingest_market_cap f store tickers asof ia force).2.1
        = true) := by
  refine ⟨?_, ?_, ?_, ?_⟩
  · intro fetch store sectors asof ia force
    rw [ingest_dim_industry]
    split
    · rfl
    · apply wmOK_of_shape
      · intro ev hev
        rcases List.mem_map.mp hev with ⟨x, _, hx⟩
        rw [← hx]
        rfl
      · intro ev hev
        split at hev
        · cases hev
        · have : ev = Event.insertDim (flatAll (sectorRows fetch asof ia) sectors) := by
            simpa using hev
          rw [this]
          rfl
      · by_cases hrows : (flatAll (sectorRows fetch asof ia) sectors).isEmpty = true
        · refine Or.inl ?_
          intro ev hev
          rw [if_pos hrows, List.append_nil] at hev
          rcases List.mem_map.mp hev with ⟨x, _, hx⟩
          rw [← hx]
          rfl
        · refine Or.inr ?_
          rw [if_neg hrows]
          simp [insertsFor]
  · intro dc ft store asof ia force
    rw [ingest_membership]
    split
    · rfl
    · apply wmOK_of_shape
      · intro ev hev
        rcases List.mem_map.mp hev with ⟨x, _, hx⟩
        rw [← hx]
        rfl
      · intro ev hev
        split at hev
        · cases hev
        · have : ev = Event.insertMembership (flatAll (memRowsOf ft asof ia) dc) := by
            simpa using hev
          rw [this]
          rfl
      · by_cases hrows : (flatAll (memRowsOf ft asof ia) dc).isEmpty = true
        · refine Or.inl ?_
          intro ev hev
          rw [if_pos hrows, List.append_nil] at hev
          rcases List.mem_map.mp hev with ⟨x, _, hx⟩
          rw [← hx]
          rfl
        · refine Or.inr ?_
          rw [if_neg hrows]
          simp [insertsFor]
  · intro download tickers interval ovl dlb cs force store ia
    have h0 : wmStrong (PricesAcc.mk 0 [] store).events = true := rfl
    have hs : wmStrong ((chunked (cleanTickers tickers) cs).foldl
        (perChunk download interval ia dlb ovl force) ⟨0, [], store⟩).events = true :=
      foldl_preserve (fun a => wmStrong a.events = true)
        (perChunk download interval ia dlb ovl force)
        (fun a x hp => perChunk_strong download interval ia dlb ovl force a x hp)
        (chunked (cleanTickers tickers) cs) ⟨0, [], store⟩ h0
    exact wmOKAux_of_strong _ _ [] hs
  · intro f store tickers asof ia force
    have h0 : noCapInsert (CapAcc.mk 0 [] [] store).events = true := rfl
    have hnc : noCapInsert (tickers.foldl (capStep f asof ia force)
        ⟨0, [], [], store⟩).events = true :=
      foldl_preserve (fun a => noCapInsert a.events = true)
        (capStep f asof ia force)
        (fun a x hp => capStep_noCap f asof ia force a x hp) tickers
        ⟨0, [], [], store⟩ h0
    show setBeforeCapInserts ((tickers.foldl (capStep f asof ia force)
      ⟨0, [], [], store⟩).events ++ _) = true
    split
    · rw [List.append_nil]
      exact setBefore_of_noCap _ hnc
    · exact setBefore_append_cap _ _ hnc

theorem recOf_ts (interval : String) (ia : Int) (n : NormRow) :
    (recOf interval ia n).ts = n.ts := rfl

theorem foldl_max_lt (L : Int) :
    ∀ (l : List PriceRec) (init : Int), L < init → (∀ r ∈ l, L < r.ts) →
      L < l.foldl (fun m x => max m x.ts) init := by
  intro l
  induction l with
  | nil => intro init h0 _; exact h0
  | cons x xs ih =>
    intro init h0 h
    rw [List.foldl_cons]
    apply ih
    · exact lt_max_of_lt_left h0
    · intro r hr
      exact h r (List.mem_cons_of_mem x hr)

theorem maxTsOf_lt (recs : List PriceRec) (L : Int) (hne : recs ≠ [])
    (h : ∀ r ∈ recs, L < r.ts) : L < maxTsOf recs := by
  cases recs with
  | nil => exact absurd rfl hne
  | cons r rs =>
    rw [maxTsOf]
    exact foldl_max_lt L rs r.ts (h r (List.mem_cons_self r rs))
      (fun x hx => h x (List.mem_cons_of_mem r hx))

/-- Invariant carried through a non-forced price run: the store stays
well-formed, every key's `last_ts` watermark only moves forward relative to
the pre-run store, and every bulk insert so far contains only rows strictly
above the key's pre-run watermark. -/
def pricesInv (store0 : StateStore) (acc : PricesAcc) : Prop :=
  WF acc.store ∧
  (∀ s t k, wleB (get_state store0 s t k).1 (get_state acc.store s t k).1 = true) ∧
  (∀ key recs, Event.insertPrices key recs ∈ acc.events →
    ∀ L, (get_state store0 "yfinance" "fact_stock_prices" key).1 = some L →
      ∀ r ∈ recs, L < r.ts)

theorem wleB_of_gate_false (o : Option Int) (asof : Int)
    (h : skipGate o asof = false) : wleB o (some asof) = true := by
  cases o with
  | none => rfl
  | some l =>
    rw [skipGate] at h
    rw [wleB]
    rw [decide_eq_false_iff_not] at h
    rw [decide_eq_true_eq]
    omega

theorem perTicker_inv (interval : String) (ia : Int) (store0 : StateStore)
    (norm : List NormRow) (acc : PricesAcc) (t : String)
    (h : pricesInv store0 acc) :
    pricesInv store0 (perTicker interval ia false norm acc t) := by
  rcases perTicker_events interval ia false norm acc t with he |
    ⟨recs, newTs, hrecs, hne, hnew, he⟩
  · rw [he]
    exact h
  · rcases h with ⟨hwf, hmono, hins⟩
    have hgt : ∀ l, (get_state acc.store "yfinance" "fact_stock_prices"
        (t ++ "|" ++ interval)).1 = some l → ∀ r ∈ recs, l < r.ts := by
      intro l hl r hr
      rw [hrecs] at hr
      rcases List.mem_map.mp hr with ⟨n, hn, hmap⟩
      rw [sub2For, if_neg (by simp), hl] at hn
      rcases List.mem_filter.mp hn with ⟨_, hdec⟩
      rw [← hmap, recOf_ts]
      exact of_decide_eq_true hdec
    have hnonenone : (get_state acc.store "yfinance" "fact_stock_prices"
        (t ++ "|" ++ interval)).1 = none →
        (get_state store0 "yfinance" "fact_stock_prices" (t ++ "|" ++ interval)).1
          = none := by
      intro hcur
      have := hmono "yfinance" "fact_stock_prices" (t ++ "|" ++ interval)
      rw [hcur] at this
      cases hpre : (get_state store0 "yfinance" "fact_stock_prices"
          (t ++ "|" ++ interval)).1 with
      | none => rfl
      | some p =>
        rw [hpre] at this
        cases this
    have hristgt : ∀ L, (get_state store0 "yfinance" "fact_stock_prices"
        (t ++ "|" ++ interval)).1 = some L → ∀ r ∈ recs, L < r.ts := by
      intro L hL r hr
      cases hcur : (get_state acc.store "yfinance" "fact_stock_prices"
          (t ++ "|" ++ interval)).1 with
      | none =>
        rw [hnonenone hcur] at hL
        cases hL
      | some l =>
        have hml := hmono "yfinance" "fact_stock_prices" (t ++ "|" ++ interval)
        rw [hL, hcur, wleB, decide_eq_true_eq] at hml
        have := hgt l hcur r hr
        omega
    rw [he]
    refine ⟨?_, ?_, ?_⟩
    · exact WF_set_state acc.store hwf _ _ _ _ _
    · intro s2 t2 k2
      show wleB (get_state store0 s2 t2 k2).1
        (get_state (set_state acc.store "yfinance" "fact_stock_prices"
          (t ++ "|" ++ interval) (some newTs) none) s2 t2 k2).1 = true
      rw [get_state_set_state acc.store hwf]
      by_cases hm : ("yfinance" == s2 && "fact_stock_prices" == t2 &&
          (t ++ "|" ++ interval) == k2) = true
      · rw [if_pos hm]
        simp only [Bool.and_eq_true, beq_iff_eq] at hm
        rcases hm with ⟨⟨hs2, ht2⟩, hk2⟩
        subst hs2; subst ht2; subst hk2
        cases hcur : (get_state acc.store "yfinance" "fact_stock_prices"
            (t ++ "|" ++ interval)).1 with
        | none =>
          rw [hnonenone hcur]
          rfl
        | some l =>
          have hml := hmono "yfinance" "fact_stock_prices" (t ++ "|" ++ interval)
          rw [hcur] at hml
          have hlt : l < maxTsOf recs := maxTsOf_lt recs l hne (hgt l hcur)
          cases hpre : (get_state store0 "yfinance" "fact_stock_prices"
              (t ++ "|" ++ interval)).1 with
          | none => rfl
          | some p =>
            rw [hpre, wleB, decide_eq_true_eq] at hml
            rw [hnew, wleB, decide_eq_true_eq]
            omega
      · rw [if_neg hm]
        exact hmono s2 t2 k2
    · intro key2 recs2 hmem L hL r hr
      show L < r.ts
      have hmem2 : Event.insertPrices key2 recs2 ∈ acc.events ∨
          Event.insertPrices key2 recs2 ∈
            ([Event.insertPrices (t ++ "|" ++ interval) recs,
              Event.setStateEv "yfinance" "fact_stock_prices" (t ++ "|" ++ interval)
                (some newTs) none] : List Event) := List.mem_append.mp hmem
      rcases hmem2 with hold | hnewm
      · exact hins key2 recs2 hold L hL r hr
      · rcases List.mem_cons.mp hnewm with heq | hrest
        · injection heq.symm with hk0 hr0
          rw [← hk0] at hL
          rw [← hr0] at hr
          exact hristgt L hL r hr
        · simp at hrest

theorem perChunk_inv (download : List String → Int → (String → Option RawFrame))
    (interval : String) (ia dlb ovl : Int) (store0 : StateStore)
    (acc : PricesAcc) (chunk : List String) (h : pricesInv store0 acc) :
    pricesInv store0 (perChunk download interval ia dlb ovl false acc chunk) := by
  rw [perChunk]
  have hdc : pricesInv store0 { acc with events := acc.events ++
      [Event.downloadChunk chunk
        (computeEarliest acc.store interval chunk ia dlb ovl false)] } := by
    rcases h with ⟨hwf, hmono, hins⟩
    refine ⟨hwf, hmono, ?_⟩
    intro key recs hmem L hL r hr
    rcases List.mem_append.mp hmem with hold | hnewm
    · exact hins key recs hold L hL r hr
    · simp at hnewm
  split
  · exact hdc
  · exact foldl_preserve (pricesInv store0)
      (perTicker interval ia false (normalize_download
        (download chunk (computeEarliest acc.store interval chunk ia dlb ovl false))
        chunk interval))
      (fun a x hp => perTicker_inv interval ia store0 _ a x hp) chunk _ hdc

theorem prices_run_inv (download : List String → Int → (String → Option RawFrame))
    (tickers : List String) (interval : String) (ovl dlb : Int) (cs : Nat)
    (store : StateStore) (ia : Int) (hwf : WF store) :
    pricesInv store ((chunked (cleanTickers tickers) cs).foldl
      (perChunk download interval ia dlb ovl false) ⟨0, [], store⟩) :=
  foldl_preserve (pricesInv store) (perChunk download interval ia dlb ovl false)
    (fun a x hp => perChunk_inv download interval ia dlb ovl store a x hp)
    (chunked (cleanTickers tickers) cs) ⟨0, [], store⟩
    ⟨hwf, fun s t k => wleB_refl _, fun key recs hmem => absurd hmem (by simp)⟩

/-- Claim C3: in a non-forced price run, every record of every bulk insert
for a key with a pre-run watermark has a timestamp strictly above that
watermark — rows at or below it are discarded before the write. -/
theorem C3_strict_watermark_filter
    (download : List String → Int → (String → Option RawFrame))
    (tickers : List String) (interval : String) (ovl dlb : Int) (cs : Nat)
    (store : StateStore) (ia : Int) (key : String) (recs : List PriceRec)
    (L : Int) (hwf : WF store)
    (hev : Event.insertPrices key recs ∈
      (ingest_stock_prices download tickers interval ovl dlb cs false store ia).2.1)
    (hL : (get_state store "yfinance" "fact_stock_prices" key).1 = some L) :
    ∀ r ∈ recs, L < r.ts :=
  (prices_run_inv download tickers interval ovl dlb cs store ia hwf).2.2
    key recs hev L hL

def dlOneFrame : List String → Int → (String → Option RawFrame) :=
  fun _ _ t => if t == "A" then some ⟨true, true, true, true, true, true,
    [⟨some 3, some 1, some 1, some 1, some 1, some 1, some 1⟩,
     ⟨some 10, some 2, some 2, some 2, some 2, some 2, some 2⟩]⟩ else none

def c3Store : StateStore :=
  [⟨"yfinance", "fact_stock_prices", "A|1d", some 5, none, 0⟩]

/-- Witness for C3: with watermark 5 for key A|1d, the run whose download
covers timestamps 3 and 10 writes only the timestamp-10 record, which the
theorem places strictly above the watermark. -/
theorem C3_witness :
    (5 : Int) < (PriceRec.mk 10 "A" "1d" 2 2 2 2 2 2 "yfinance" 1000).ts :=
  C3_strict_watermark_filter dlOneFrame ["A"] "1d" 2 100 50 c3Store 1000 "A|1d"
    [⟨10, "A", "1d", 2, 2, 2, 2, 2, 2, "yfinance", 1000⟩] 5
    (by intro r hr; rw [List.mem_singleton.mp hr]; decide) (by decide) (by decide)
    ⟨10, "A", "1d", 2, 2, 2, 2, 2, 2, "yfinance", 1000⟩ (by decide)

theorem capStep_mono (f : String → Except String TickerInfo) (asof ia : Int)
    (store0 : StateStore) (acc : CapAcc) (u0 : String) (hwf : WF acc.store)
    (h : ∀ s t k, wleB (get_state store0 s t k).2 (get_state acc.store s t k).2 = true) :
    ∀ s t k, wleB (get_state store0 s t k).2
      (get_state (capStep f asof ia false acc u0).store s t k).2 = true := by
  intro s t k
  rw [capStep]
  by_cases hc : (u0.pyStrip == "" || u0.pyStrip == "nan") = true
  · rw [if_pos hc]
    exact h s t k
  · rw [if_neg hc]
    by_cases hg : (!false && skipGate
        (get_state acc.store "yfinance" "fact_market_cap" u0.pyStrip).2 asof) = true
    · rw [if_pos hg]
      exact h s t k
    · rw [if_neg hg]
      have hgf : skipGate
          (get_state acc.store "yfinance" "fact_market_cap" u0.pyStrip).2 asof = false := by
        simpa using hg
      split
      · exact h s t k
      · split
        · exact h s t k
        · show wleB (get_state store0 s t k).2
            (get_state (set_state acc.store "yfinance" "fact_market_cap"
              u0.pyStrip none (some asof)) s t k).2 = true
          rw [get_state_set_state acc.store hwf]
          by_cases hm : ("yfinance" == s && "fact_market_cap" == t
              && u0.pyStrip == k) = true
          · rw [if_pos hm]
            simp only [Bool.and_eq_true, beq_iff_eq] at hm
            rcases hm with ⟨⟨hs, ht⟩, hk⟩
            subst hs; subst ht; subst hk
            exact wleB_trans (h _ _ _) (wleB_of_gate_false _ asof hgf)
          · rw [if_neg hm]
            exact h s t k

theorem capFold_mono (f : String → Except String TickerInfo) (asof ia : Int)
    (store0 : StateStore) (l : List String) (acc : CapAcc) (hwf : WF acc.store)
    (h : ∀ s t k, wleB (get_state store0 s t k).2 (get_state acc.store s t k).2 = true) :
    ∀ s t k, wleB (get_state store0 s t k).2
      (get_state (l.foldl (capStep f asof ia false) acc).store s t k).2 = true :=
  (foldl_preserve (fun a => WF a.store ∧
      ∀ s t k, wleB (get_state store0 s t k).2 (get_state a.store s t k).2 = true)
    (capStep f asof ia false)
    (fun a x hp => ⟨capStep_WF f asof ia false a x hp.1,
      capStep_mono f asof ia store0 a x hp.1 hp.2⟩) l acc ⟨hwf, h⟩).2

theorem dim_mono (fetch : SectorFetch) (store : StateStore)
    (sectors : List String) (asof ia : Int) (hwf : WF store) :
    ∀ s t k, wleB (get_state store s t k).2
      (get_state (ingest_dim_industry fetch store sectors asof ia false).2.2 s t k).2
        = true := by
  intro s t k
  rw [ingest_dim_industry]
  by_cases hskip : (!false && skipGate
      (get_state store "yfinance" "dim_industry" "ALL").2 asof) = true
  · rw [if_pos hskip]
    exact wleB_refl _
  · rw [if_neg hskip]
    show wleB _ (get_state (set_state store "yfinance" "dim_industry" "ALL"
      none (some asof)) s t k).2 = true
    rw [get_state_set_state store hwf]
    by_cases hm : ("yfinance" == s && "dim_industry" == t && "ALL" == k) = true
    · rw [if_pos hm]
      simp only [Bool.and_eq_true, beq_iff_eq] at hm
      rcases hm with ⟨⟨hs, ht⟩, hk⟩
      subst hs; subst ht; subst hk
      have hgf : skipGate (get_state store "yfinance" "dim_industry" "ALL").2 asof
          = false := by simpa using hskip
      exact wleB_of_gate_false _ asof hgf
    · rw [if_neg hm]
      exact wleB_refl _

theorem mem_mono (dc : List (String × String × String))
    (ft : String → Except String (Option MemTable)) (store : StateStore)
    (asof ia : Int) (hwf : WF store) :
    ∀ s t k, wleB (get_state store s t k).2
      (get_state (ingest_membership dc ft store asof ia false).2.2 s t k).2 = true := by
  intro s t k
  rw [ingest_membership]
  by_cases hskip : (!false && skipGate
      (get_state store "yfinance" "industry_membership" "ALL").2 asof) = true
  · rw [if_pos hskip]
    exact wleB_refl _
  · rw [if_neg hskip]
    show wleB _ (get_state (set_state store "yfinance" "industry_membership" "ALL"
      none (some asof)) s t k).2 = true
    rw [get_state_set_state store hwf]
    by_cases hm : ("yfinance" == s && "industry_membership" == t && "ALL" == k) = true
    · rw [if_pos hm]
      simp only [Bool.and_eq_true, beq_iff_eq] at hm
      rcases hm with ⟨⟨hs, ht⟩, hk⟩
      subst hs; subst ht; subst hk
      have hgf : skipGate (get_state store "yfinance" "industry_membership" "ALL").2
          asof = false := by simpa using hskip
      exact wleB_of_gate_false _ asof hgf
    · rw [if_neg hm]
      exact wleB_refl _

/-- Counterexample to claim C6: after a successful non-forced dimension run
at as-of date 10, a second, successful and non-skipped (forced) run at the
older as-of date 5 records last_asof_date 5, strictly below the previously
recorded 10 — the recorded watermark sequence is not non-decreasing. -/
theorem C6_counterexample :
    (get_state (ingest_dim_industry fetchFailAll [] ["s"] 10 10 false).2.2
      "yfinance" "dim_industry" "ALL").2 = some 10 ∧
    (ingest_dim_industry fetchFailAll
      (ingest_dim_industry fetchFailAll [] ["s"] 10 10 false).2.2
      ["s"] 5 11 true).2.1 ≠ [] ∧
    (get_state (ingest_dim_industry fetchFailAll
      (ingest_dim_industry fetchFailAll [] ["s"] 10 10 false).2.2
      ["s"] 5 11 true).2.2 "yfinance" "dim_industry" "ALL").2 = some 5 ∧
    ¬ (10 : Int) ≤ 5 := by
  refine ⟨by decide, by decide, by decide, by decide⟩

/-- Claim C6 as amended: with force off, every job leaves each key's recorded
watermark (last_asof_date for the snapshot jobs, last_ts for the price job)
at or above its pre-run value, so across non-forced runs the recorded
sequence is non-decreasing; a forced run may record a smaller value. -/
theorem C6_monotone_no_force :
    (∀ (fetch : SectorFetch) (store : StateStore) (sectors : List String)
        (asof ia : Int), WF store → ∀ s t k,
      wleB (get_state store s t k).2
        (get_state (ingest_dim_industry fetch store sectors asof ia false).2.2
          s t k).2 = true) ∧
    (∀ (dc : List (String × String × String))
        (ft : String → Except String (Option MemTable)) (store : StateStore)
        (asof ia : Int), WF store → ∀ s t k,
      wleB (get_state store s t k).2
        (get_state (ingest_membership dc ft store asof ia false).2.2 s t k).2 = true) ∧
    (∀ (f : String → Except String TickerInfo) (store : StateStore)
        (tickers : List String) (asof ia : Int), WF store → ∀ s t k,
      wleB (get_state store s t k).2
        (get_state (ingest_market_cap f store tickers asof ia false).2.2 s t k).2
          = true) ∧
    (∀ (download : List String → Int → (String → Option RawFrame))
        (tickers : List String) (interval : String) (ovl dlb : Int) (cs : Nat)
        (store : StateStore) (ia : Int), WF store → ∀ s t k,
      wleB (get_state store s t k).1
        (get_state (ingest_stock_prices download tickers interval ovl dlb cs
          false store ia).2.2 s t k).1 = true) := by
  refine ⟨?_, ?_, ?_, ?_⟩
  · intro fetch store sectors asof ia hwf
    exact dim_mono fetch store sectors asof ia hwf
  · intro dc ft store asof ia hwf
    exact mem_mono dc ft store asof ia hwf
  · intro f store tickers asof ia hwf
    exact capFold_mono f asof ia store tickers ⟨0, [], [], store⟩ hwf
      (fun s t k => wleB_refl _)
  · intro download tickers interval ovl dlb cs store ia hwf
    exact (prices_run_inv download tickers interval ovl dlb cs store ia hwf).2.1

/-- Witness for C6 at concrete inputs: a non-forced dimension run at as-of 7
over a store holding 5 moves the ALL watermark up, never down. -/
theorem C6_witness :
    wleB (get_state dimStore5 "yfinance" "dim_industry" "ALL").2
      (get_state (ingest_dim_industry fetchFailAll dimStore5 ["s"] 7 7 false).2.2
        "yfinance" "dim_industry" "ALL").2 = true :=
  C6_monotone_no_force.1 fetchFailAll dimStore5 ["s"] 7 7
    (by intro r hr; rw [List.mem_singleton.mp hr]; decide)
    "yfinance" "dim_industry" "ALL"

theorem earliestStep_le (store : StateStore) (interval : String) (ovl : Int)
    (e : Int) (t : String) : earliestStep store interval ovl e t ≤ e := by
  rw [earliestStep]
  split
  · exact le_refl e
  · dsimp only
    split
    · omega
    · exact le_refl e

theorem earliestFold_le (store : StateStore) (interval : String) (ovl : Int) :
    ∀ (chunk : List String) (e : Int),
      chunk.foldl (earliestStep store interval ovl) e ≤ e := by
  intro chunk
  induction chunk with
  | nil => intro e; exact le_refl e
  | cons x xs ih =>
    intro e
    rw [List.foldl_cons]
    exact le_trans (ih (earliestStep store interval ovl e x))
      (earliestStep_le store interval ovl e x)

theorem earliestStep_le_wm (store : StateStore) (interval : String) (ovl : Int)
    (e : Int) (t : String) (l : Int)
    (hl : (get_state store "yfinance" "fact_stock_prices" (t ++ "|" ++ interval)).1
      = some l) :
    earliestStep store interval ovl e t ≤ l - ovl * dayS := by
  rw [earliestStep, hl]
  dsimp only
  split
  · omega
  · omega

theorem earliestFold_le_wm (store : StateStore) (interval : String) (ovl : Int) :
    ∀ (chunk : List String) (e : Int) (t : String) (l : Int), t ∈ chunk →
      (get_state store "yfinance" "fact_stock_prices" (t ++ "|" ++ interval)).1
        = some l →
      chunk.foldl (earliestStep store interval ovl) e ≤ l - ovl * dayS := by
  intro chunk
  induction chunk with
  | nil =>
    intro e t l hmem _
    exact absurd hmem (List.not_mem_nil t)
  | cons x xs ih =>
    intro e t l hmem hl
    rw [List.foldl_cons]
    rcases List.mem_cons.mp hmem with he | hm
    · subst he
      exact le_trans (earliestFold_le store interval ovl xs _)
        (earliestStep_le_wm store interval ovl e t l hl)
    · exact ih (earliestStep store interval ovl e x) t l hm hl

theorem earliestFold_cases (store : StateStore) (interval : String) (ovl : Int) :
    ∀ (chunk : List String) (e : Int),
      chunk.foldl (earliestStep store interval ovl) e = e ∨
      ∃ t ∈ chunk, ∃ l,
        (get_state store "yfinance" "fact_stock_prices" (t ++ "|" ++ interval)).1
          = some l ∧
        chunk.foldl (earliestStep store interval ovl) e = l - ovl * dayS := by
  intro chunk
  induction chunk with
  | nil => intro e; exact Or.inl rfl
  | cons x xs ih =>
    intro e
    rw [List.foldl_cons]
    rcases ih (earliestStep store interval ovl e x) with h | ⟨t, hmem, l, hl, heq⟩
    · rw [h]
      rw [earliestStep]
      cases hx : (get_state store "yfinance" "fact_stock_prices"
          (x ++ "|" ++ interval)).1 with
      | none => exact Or.inl rfl
      | some l =>
        dsimp only
        by_cases hlt : l - ovl * dayS < e
        · refine Or.inr ⟨x, List.mem_cons_self x xs, l, hx, ?_⟩
          rw [if_pos hlt]
        · rw [if_neg hlt]
          exact Or.inl rfl
    · exact Or.inr ⟨t, List.mem_cons_of_mem x hmem, l, hl, heq⟩

theorem earliestFold_none (store : StateStore) (interval : String) (ovl : Int) :
    ∀ (chunk : List String) (e : Int),
      (∀ t ∈ chunk, (get_state store "yfinance" "fact_stock_prices"
        (t ++ "|" ++ interval)).1 = none) →
      chunk.foldl (earliestStep store interval ovl) e = e := by
  intro chunk
  induction chunk with
  | nil => intro e _; rfl
  | cons x xs ih =>
    intro e h
    rw [List.foldl_cons, earliestStep, h x (List.mem_cons_self x xs)]
    exact ih e (fun t ht => h t (List.mem_cons_of_mem x ht))

def dlNone : List String → Int → (String → Option RawFrame) := fun _ _ _ => none

def c2Store : StateStore :=
  [⟨"yfinance", "fact_stock_prices", "A|1d", some (450 * 86400), none, 0⟩,
   ⟨"yfinance", "fact_stock_prices", "B|1d", some (100 * 86400), none, 1⟩]

/-- Counterexample to claim C2: with watermarks 450 days for A and 100 days
for B in one chunk, overlap 5 and lookback 100 at day 500, the run fetches
the chunk from day 95 — not from min(now − D, L − O) = day 400 for key A.
The fetch-window start is a chunk-wide minimum, not a per-key value. -/
theorem C2_counterexample :
    (ingest_stock_prices dlNone ["A", "B"] "1d" 5 100 50 false c2Store
      (500 * 86400)).2.1 = [Event.downloadChunk ["A", "B"] (95 * 86400)] ∧
    (95 * 86400 : Int) ≠
      min ((500 * 86400 : Int) - 100 * 86400) ((450 * 86400 : Int) - 5 * 86400) := by
  constructor
  · decide
  · decide

/-- Claim C2 as amended: with force off the fetch-window start of a chunk is
the minimum of `now − D` and `L − O` over all keys of the chunk that have a
prior watermark — so it equals min(now − D, L − O) when the key is alone in
its chunk, equals now − D when no key of the chunk has a watermark, and in
every case is at most now − D and at most L − O for every watermarked key of
the chunk (the window is only ever widened). -/
theorem C2_chunk_window :
    (∀ (store : StateStore) (interval : String) (chunk : List String)
        (ia dlb ovl : Int) (force : Bool),
      computeEarliest store interval chunk ia dlb ovl force ≤ ia - dlb * dayS) ∧
    (∀ (store : StateStore) (interval : String) (chunk : List String)
        (ia dlb ovl : Int) (t : String) (l : Int), t ∈ chunk →
      (get_state store "yfinance" "fact_stock_prices" (t ++ "|" ++ interval)).1
        = some l →
      computeEarliest store interval chunk ia dlb ovl false ≤ l - ovl * dayS) ∧
    (∀ (store : StateStore) (interval : String) (chunk : List String)
        (ia dlb ovl : Int),
      computeEarliest store interval chunk ia dlb ovl false = ia - dlb * dayS ∨
      ∃ t ∈ chunk, ∃ l,
        (get_state store "yfinance" "fact_stock_prices" (t ++ "|" ++ interval)).1
          = some l ∧
        computeEarliest store interval chunk ia dlb ovl false = l - ovl * dayS) ∧
    (∀ (store : StateStore) (interval : String) (t : String) (ia dlb ovl l : Int),
      (get_state store "yfinance" "fact_stock_prices" (t ++ "|" ++ interval)).1
        = some l →
      computeEarliest store interval [t] ia dlb ovl false =
        min (ia - dlb * dayS) (l - ovl * dayS)) ∧
    (∀ (store : StateStore) (interval : String) (chunk : List String)
        (ia dlb ovl : Int),
      (∀ t ∈ chunk, (get_state store "yfinance" "fact_stock_prices"
        (t ++ "|" ++ interval)).1 = none) →
      computeEarliest store interval chunk ia dlb ovl false = ia - dlb * dayS) := by
  refine ⟨?_, ?_, ?_, ?_, ?_⟩
  · intro store interval chunk ia dlb ovl force
    rw [computeEarliest]
    split
    · exact le_refl _
    · exact earliestFold_le store interval ovl chunk _
  · intro store interval chunk ia dlb ovl t l hmem hl
    rw [computeEarliest]
    exact earliestFold_le_wm store interval ovl chunk _ t l hmem hl
  · intro store interval chunk ia dlb ovl
    rw [computeEarliest]
    exact earliestFold_cases store interval ovl chunk _
  · intro store interval t ia dlb ovl l hl
    rw [computeEarliest]
    show List.foldl (earliestStep store interval ovl) (ia - dlb * dayS) [t] = _
    rw [List.foldl_cons, List.foldl_nil, earliestStep, hl]
    dsimp only
    rw [min_def]
    split
    · split
      · omega
      · omega
    · split
      · omega
      · omega
  · intro store interval chunk ia dlb ovl h
    rw [computeEarliest]
    exact earliestFold_none store interval ovl chunk _ h

/-- Witness for C2 at concrete inputs: a singleton chunk with watermark at
day 100, overlap 5, lookback 100 at day 500 starts at day 95 = min of the
two candidates, and a chunk with no watermark starts at now − D. -/
theorem C2_witness :
    computeEarliest c2Store "1d" ["B"] (500 * 86400) 100 5 false =
      min ((500 * 86400 : Int) - 100 * 86400) ((100 * 86400 : Int) - 5 * 86400) ∧
    computeEarliest c2Store "1d" ["C"] (500 * 86400) 100 5 false =
      (500 * 86400 : Int) - 100 * 86400 :=
  ⟨C2_chunk_window.2.2.2.1 c2Store "1d" "B" (500 * 86400) 100 5 (100 * 86400)
      (by decide),
   C2_chunk_window.2.2.2.2 c2Store "1d" ["C"] (500 * 86400) 100 5
      (by intro t ht; rw [List.mem_singleton.mp ht]; decide)⟩

theorem sub2For_force (st : StateStore) (sub : List NormRow) (key : String) :
    sub2For st true sub key = sub := rfl

theorem computeEarliest_force (store : StateStore) (interval : String)
    (chunk : List String) (ia dlb ovl : Int) :
    computeEarliest store interval chunk ia dlb ovl true = ia - dlb * dayS := rfl

theorem perTicker_indep (interval : String) (ia : Int) (norm : List NormRow)
    (t : String) (acc1 acc2 : PricesAcc)
    (h1 : acc1.total = acc2.total) (h2 : acc1.events = acc2.events) :
    (perTicker interval ia true norm acc1 t).total =
      (perTicker interval ia true norm acc2 t).total ∧
    (perTicker interval ia true norm acc1 t).events =
      (perTicker interval ia true norm acc2 t).events := by
  rw [perTicker, perTicker]
  dsimp only
  rw [sub2For_force, sub2For_force]
  by_cases hs : (norm.filter (fun r => r.ticker == t)).isEmpty = true
  · rw [if_pos hs, if_pos hs]
    exact ⟨h1, h2⟩
  · rw [if_neg hs, if_neg hs, if_neg hs, if_neg hs]
    constructor
    · show acc1.total + _ = acc2.total + _
      rw [h1]
    · show acc1.events ++ _ = acc2.events ++ _
      rw [h2]

theorem perChunk_indep (download : List String → Int → (String → Option RawFrame))
    (interval : String) (ia dlb ovl : Int) (chunk : List String)
    (acc1 acc2 : PricesAcc)
    (h1 : acc1.total = acc2.total) (h2 : acc1.events = acc2.events) :
    (perChunk download interval ia dlb ovl true acc1 chunk).total =
      (perChunk download interval ia dlb ovl true acc2 chunk).total ∧
    (perChunk download interval ia dlb ovl true acc1 chunk).events =
      (perChunk download interval ia dlb ovl true acc2 chunk).events := by
  rw [perChunk, perChunk]
  rw [computeEarliest_force, computeEarliest_force]
  have hpair : ∀ a b : PricesAcc, a.total = b.total ∧ a.events = b.events →
      ∀ x, (perTicker interval ia true (normalize_download
          (download chunk (ia - dlb * dayS)) chunk interval) a x).total =
        (perTicker interval ia true (normalize_download
          (download chunk (ia - dlb * dayS)) chunk interval) b x).total ∧
        (perTicker interval ia true (normalize_download
          (download chunk (ia - dlb * dayS)) chunk interval) a x).events =
        (perTicker interval ia true (normalize_download
          (download chunk (ia - dlb * dayS)) chunk interval) b x).events := by
    intro a b hab x
    exact perTicker_indep interval ia _ x a b hab.1 hab.2
  by_cases hn : (normalize_download (download chunk (ia - dlb * dayS))
      chunk interval).isEmpty = true
  · rw [if_pos hn, if_pos hn]
    exact ⟨h1, by rw [h2]⟩
  · rw [if_neg hn, if_neg hn]
    exact foldl_rel (fun a b : PricesAcc => a.total = b.total ∧ a.events = b.events)
      _ _ (fun a b x hab => hpair a b hab x) chunk
      { acc1 with events := acc1.events ++ [Event.downloadChunk chunk (ia - dlb * dayS)] }
      { acc2 with events := acc2.events ++ [Event.downloadChunk chunk (ia - dlb * dayS)] }
      ⟨h1, by rw [h2]⟩

def c24Store : StateStore :=
  [⟨"yfinance", "fact_stock_prices", "A|1d", some (100 * 86400), none, 0⟩]

/-- Counterexample to claim C4: with force on and watermark at day 100,
overlap 5, lookback 100 at day 500, the run fetches from day 400 = now − D,
not from min(now − D, L − O) = day 95 — the overlap-window widening is
bypassed together with the skip and filter decisions. -/
theorem C4_counterexample :
    (ingest_stock_prices dlNone ["A"] "1d" 5 100 50 true c24Store
      (500 * 86400)).2.1 = [Event.downloadChunk ["A"] (400 * 86400)] ∧
    (400 * 86400 : Int) ≠
      min ((500 * 86400 : Int) - 100 * 86400) ((100 * 86400 : Int) - 5 * 86400) := by
  constructor
  · decide
  · decide

/-- Claim C4 as amended: with force on the skip and watermark-filter
decisions are bypassed and so is the overlap-window widening — the
fetch-window start is exactly now − default_lookback_days for every chunk,
and the run's row count and trace are independent of the prior state. -/
theorem C4_force_window :
    (∀ (store : StateStore) (interval : String) (chunk : List String)
        (ia dlb ovl : Int),
      computeEarliest store interval chunk ia dlb ovl true = ia - dlb * dayS) ∧
    (∀ (download : List String → Int → (String → Option RawFrame))
        (tickers : List String) (interval : String) (ovl dlb : Int) (cs : Nat)
        (ia : Int) (store1 store2 : StateStore),
      (ingest_stock_prices download tickers interval ovl dlb cs true store1 ia).1 =
        (ingest_stock_prices download tickers interval ovl dlb cs true store2 ia).1 ∧
      (ingest_stock_prices download tickers interval ovl dlb cs true store1 ia).2.1 =
        (ingest_stock_prices download tickers interval ovl dlb cs true store2 ia).2.1) := by
  constructor
  · intro store interval chunk ia dlb ovl
    exact computeEarliest_force store interval chunk ia dlb ovl
  · intro download tickers interval ovl dlb cs ia store1 store2
    exact foldl_rel (fun a b : PricesAcc => a.total = b.total ∧ a.events = b.events)
      (perChunk download interval ia dlb ovl true)
      (perChunk download interval ia dlb ovl true)
      (fun a b x hab => perChunk_indep download interval ia dlb ovl x a b hab.1 hab.2)
      (chunked (cleanTickers tickers) cs) ⟨0, [], store1⟩ ⟨0, [], store2⟩ ⟨rfl, rfl⟩

def frameBadClose : RawFrame :=
  ⟨true, true, true, true, true, true,
    [⟨some 1, some 1, some 1, some 1, none, some 1, some 1⟩]⟩

def frameGoodClose : RawFrame :=
  ⟨true, true, true, true, true, true,
    [⟨some 1, some 1, some 1, some 1, some 2, none, some 7⟩]⟩

def framesOf (f : RawFrame) : String → Option RawFrame :=
  fun t => if t == "A" then some f else none

/-- Counterexample to claim C9: a row with a valid timestamp whose close is
unparseable (NaN after coercion) is dropped by normalization, while the same
row with a parseable close is kept — so a row can be failed on account of an
unparseable numeric field (the close). -/
theorem C9_counterexample :
    normalize_download (framesOf frameBadClose) ["A"] "1d" = [] ∧
    frameBadClose.rows.length = 1 ∧
    (frameBadClose.rows.head?).map (fun r => r.ts) = some (some 1) ∧
    normalize_download (framesOf frameGoodClose) ["A"] "1d" ≠ [] := by
  refine ⟨by decide, by decide, by decide, by decide⟩

/-- Claim C9 as amended: missing adjusted close falls back to close, missing
open, high and low individually fall back to close, missing volume falls back
to 0, and an unparseable market weight falls back to 0.0; a row is failed
during normalization only when its timestamp or its (effective) close is
unparseable, and no row is failed on account of any other numeric field. -/
theorem C9_numeric_fallbacks :
    (∀ (f : RawFrame) (t iv : String) (ia : Int) (r : RawPriceRow) (ts : Int)
        (c : Rat), r.ts = some ts → effR f.hasClose r.closeV = some c →
      ∃ n, normRowOf f t iv r = some n ∧
        (recOf iv ia n).closeP = c ∧
        (effR f.hasAdj r.adjV = none → (recOf iv ia n).adj_close = c) ∧
        (effR f.hasOpen r.openV = none → (recOf iv ia n).openP = c) ∧
        (effR f.hasHigh r.highV = none → (recOf iv ia n).highP = c) ∧
        (effR f.hasLow r.lowV = none → (recOf iv ia n).lowP = c) ∧
        (r.volV = none → (recOf iv ia n).volume = 0)) ∧
    (∀ (f : RawFrame) (t iv : String) (r : RawPriceRow),
      normRowOf f t iv r = none →
      r.ts = none ∨ effR f.hasClose r.closeV = none) ∧
    (∀ (fetch : SectorFetch) (s : String) (asof ia : Int) (tbl : RawTable)
        (dc : DimCols) (row : List Cell),
      fetch s = .ok (some tbl) →
      detectDimCols tbl.columns = some dc →
      row ∈ tbl.rows →
      (cellAt tbl.columns row dc.weightCol).asFloat = none →
      ((cellAt tbl.columns row dc.keyCol).asStr.pyStrip == "") = false →
      ((cellAt tbl.columns row dc.keyCol).asStr.pyStrip == "nan") = false →
      DimRow.mk s ((cellAt tbl.columns row dc.keyCol).asStr.pyStrip)
        ((cellAt tbl.columns row dc.nameCol).asStr.pyStrip)
        ((cellAt tbl.columns row dc.symbolCol).asStr.pyStrip) 0 asof ia
        ∈ sectorRows fetch asof ia s) := by
  refine ⟨?_, ?_, ?_⟩
  · intro f t iv ia r ts c hts hc
    refine ⟨⟨ts, t, iv, effR f.hasOpen r.openV, effR f.hasHigh r.highV,
      effR f.hasLow r.lowV, c, effR f.hasAdj r.adjV, effVol f.hasVol r.volV⟩,
      ?_, rfl, ?_, ?_, ?_, ?_, ?_⟩
    · rw [normRowOf, hts, hc]
    · intro h
      show (effR f.hasAdj r.adjV).getD c = c
      rw [h]
      rfl
    · intro h
      show (effR f.hasOpen r.openV).getD c = c
      rw [h]
      rfl
    · intro h
      show (effR f.hasHigh r.highV).getD c = c
      rw [h]
      rfl
    · intro h
      show (effR f.hasLow r.lowV).getD c = c
      rw [h]
      rfl
    · intro h
      show effVol f.hasVol r.volV = 0
      rw [h, effVol]
      cases f.hasVol
      · rfl
      · rfl
  · intro f t iv r h
    rw [normRowOf] at h
    cases hts : r.ts with
    | none => exact Or.inl rfl
    | some ts =>
      rw [hts] at h
      cases hc : effR f.hasClose r.closeV with
      | none => exact Or.inr rfl
      | some c =>
        rw [hc] at h
        cases h
  · intro fetch s asof ia tbl dc row hfetch hdc hrow hw hk1 hk2
    rw [sectorRows]
    simp only [hfetch]
    rw [if_neg (by
      intro hemp
      rw [List.isEmpty_iff] at hemp
      rw [hemp] at hrow
      exact absurd hrow (List.not_mem_nil row))]
    simp only [hdc]
    refine List.mem_filterMap.mpr ⟨row, hrow, ?_⟩
    simp only [hk1, hk2, hw]
    rfl

/-- Witness for C9 at a concrete row: the kept row's record falls back to the
close value 2 for its missing adjusted close. -/
theorem C9_witness :
    normalize_download (framesOf frameGoodClose) ["A"] "1d" =
      [⟨1, "A", "1d", some 1, some 1, some 1, 2, none, 7⟩] ∧
    (recOf "1d" 6 ⟨1, "A", "1d", some 1, some 1, some 1, 2, none, 7⟩).adj_close = 2 := by
  rcases C9_numeric_fallbacks.1 frameGoodClose "A" "1d" 6
      ⟨some 1, some 1, some 1, some 1, some 2, none, some 7⟩ 1 2
      (by decide) (by decide) with ⟨n, hn, _, hadj, _⟩
  have hval : normRowOf frameGoodClose "A" "1d"
      ⟨some 1, some 1, some 1, some 1, some 2, none, some 7⟩ =
      some ⟨1, "A", "1d", some 1, some 1, some 1, 2, none, 7⟩ := by decide
  rw [hval] at hn
  have hn2 : (⟨1, "A", "1d", some 1, some 1, some 1, 2, none, 7⟩ : NormRow) = n :=
    Option.some.inj hn
  have hadj2 := hadj (by decide)
  rw [← hn2] at hadj2
  exact ⟨by decide, hadj2⟩

theorem string_append_cancel (u t s : String) (h : u ++ s = t ++ s) : u = t := by
  cases u with | mk ud =>
  cases t with | mk td =>
  cases s with | mk sd =>
  injection h with hd
  exact congrArg String.mk (List.append_cancel_right hd)

theorem key_inj (u t iv : String) (h : u ++ "|" ++ iv = t ++ "|" ++ iv) : u = t :=
  string_append_cancel u t "|" (string_append_cancel (u ++ "|") (t ++ "|") iv h)

theorem normRowOf_ticker (f : RawFrame) (w iv : String) (r : RawPriceRow)
    (n : NormRow) (h : normRowOf f w iv r = some n) : n.ticker = w := by
  rw [normRowOf] at h
  cases hts : r.ts with
  | none =>
    rw [hts] at h
    cases h
  | some ts =>
    rw [hts] at h
    cases hc : effR f.hasClose r.closeV with
    | none =>
      rw [hc] at h
      cases h
    | some c =>
      rw [hc] at h
      have := Option.some.inj h
      rw [← this]

theorem normalize_cons (frames : String → Option RawFrame) (iv w : String)
    (ws : List String) :
    normalize_download frames (w :: ws) iv =
      tickRows frames iv w ++ normalize_download frames ws iv := rfl

theorem tickRows_filter_ne (frames : String → Option RawFrame) (w iv u : String)
    (hne : w ≠ u) :
    (tickRows frames iv w).filter (fun r => r.ticker == u) = [] := by
  rw [tickRows]
  cases hf : frames w with
  | none => rfl
  | some fr =>
    rw [List.filter_eq_nil_iff]
    intro n hn
    rcases List.mem_filterMap.mp hn with ⟨r, _, hr⟩
    rw [normRowOf_ticker fr w iv r n hr]
    simp [hne]

theorem tickRows_agree (frames1 frames2 : String → Option RawFrame)
    (iv w : String) (h : frames1 w = frames2 w) :
    tickRows frames1 iv w = tickRows frames2 iv w := by
  rw [tickRows, tickRows, h]

theorem normalize_filter_ticker (iv u : String) :
    ∀ (chunk : List String) (frames1 frames2 : String → Option RawFrame)
      (t : String), u ≠ t → (∀ w, w ≠ t → frames1 w = frames2 w) →
      (normalize_download frames1 chunk iv).filter (fun r => r.ticker == u) =
      (normalize_download frames2 chunk iv).filter (fun r => r.ticker == u) := by
  intro chunk
  induction chunk with
  | nil =>
    intro frames1 frames2 t _ _
    rfl
  | cons w ws ih =>
    intro frames1 frames2 t hu hagree
    rw [normalize_cons, normalize_cons, List.filter_append, List.filter_append,
      ih frames1 frames2 t hu hagree]
    by_cases hw : w = t
    · subst hw
      rw [tickRows_filter_ne frames1 w iv u (fun he => hu he.symm),
        tickRows_filter_ne frames2 w iv u (fun he => hu he.symm)]
    · rw [tickRows_agree frames1 frames2 iv w (hagree w hw)]

theorem norm_no_failed_ticker (iv t : String) :
    ∀ (chunk : List String) (frames : String → Option RawFrame),
      frames t = none →
      (normalize_download frames chunk iv).filter (fun r => r.ticker == t) = [] := by
  intro chunk
  induction chunk with
  | nil =>
    intro frames _
    rfl
  | cons w ws ih =>
    intro frames hnone
    rw [normalize_cons, List.filter_append, ih frames hnone, List.append_nil]
    by_cases hw : w = t
    · subst hw
      rw [tickRows, hnone]
      rfl
    · exact tickRows_filter_ne frames w iv t hw

/-- Events that write market-cap rows or state for one ticker key. -/
def evWritesCap (t : String) : Event → Bool
  | .setStateEv _ _ k _ _ => k == t
  | .insertCap rows => rows.any (fun r => r.ticker == t)
  | _ => false

theorem evWritesCap_of_about (t : String) (e : Event)
    (h : evAboutCap t e = false) : evWritesCap t e = false := by
  cases e <;> simp_all [evAboutCap, evWritesCap]

/-- The per-ticker boundary of the market-cap job never produces a row for
the ticker: the snapshot gate fires against the pre-run store, or the fetch
raises, or the info has no market cap. -/
def capNeverRow (f : String → Except String TickerInfo) (store0 : StateStore)
    (asof : Int) (tstr : String) : Prop :=
  skipGate (get_state store0 "yfinance" "fact_market_cap" tstr).2 asof = true ∨
  (∃ e, f tstr = .error e) ∨
  (∃ info, f tstr = .ok info ∧ info.marketCap = none)

theorem capStep_noRow (f : String → Except String TickerInfo) (asof ia : Int)
    (acc : CapAcc) (x : String) (store0 : StateStore) (tstr : String)
    (hx : x.pyStrip = tstr) (hnr : capNeverRow f store0 asof tstr)
    (hgs : get_state acc.store "yfinance" "fact_market_cap" tstr =
      get_state store0 "yfinance" "fact_market_cap" tstr) :
    (capStep f asof ia false acc x).total = acc.total ∧
    (capStep f asof ia false acc x).batch = acc.batch ∧
    (capStep f asof ia false acc x).store = acc.store ∧
    ∃ d, (capStep f asof ia false acc x).events = acc.events ++ d ∧
      d.all (fun ev => !(evWritesCap tstr ev)) = true := by
  rw [capStep]
  by_cases hc : (x.pyStrip == "" || x.pyStrip == "nan") = true
  · rw [if_pos hc]
    exact ⟨rfl, rfl, rfl, ⟨[], by simp, rfl⟩⟩
  · rw [if_neg hc]
    by_cases hg : (!false && skipGate (get_state acc.store "yfinance"
        "fact_market_cap" x.pyStrip).2 asof) = true
    · rw [if_pos hg]
      exact ⟨rfl, rfl, rfl, ⟨[], by simp, rfl⟩⟩
    · rw [if_neg hg]
      rcases hnr with hskip | ⟨e, hf⟩ | ⟨info, hf, hmc⟩
      · exfalso
        rw [hx, hgs, hskip] at hg
        exact hg rfl
      · rw [hx]
        simp only [hf]
        exact ⟨by simp, by simp, by simp,
          ⟨[Event.fetchTickerInfo tstr, Event.logFail tstr], by simp, rfl⟩⟩
      · rw [hx]
        simp only [hf, hmc]
        exact ⟨by simp, by simp, by simp,
          ⟨[Event.fetchTickerInfo tstr], by simp, rfl⟩⟩

theorem capFold_noWrite (f : String → Except String TickerInfo) (asof ia : Int)
    (store0 : StateStore) (tstr : String)
    (hnr : capNeverRow f store0 asof tstr) :
    ∀ (l : List String) (acc : CapAcc),
      WF acc.store →
      get_state acc.store "yfinance" "fact_market_cap" tstr =
        get_state store0 "yfinance" "fact_market_cap" tstr →
      acc.events.all (fun ev => !(evWritesCap tstr ev)) = true →
      acc.batch.all (fun r => !(r.ticker == tstr)) = true →
      WF ((l.foldl (capStep f asof ia false) acc).store) ∧
      get_state ((l.foldl (capStep f asof ia false) acc).store)
        "yfinance" "fact_market_cap" tstr =
        get_state store0 "yfinance" "fact_market_cap" tstr ∧
      ((l.foldl (capStep f asof ia false) acc).events).all
        (fun ev => !(evWritesCap tstr ev)) = true ∧
      ((l.foldl (capStep f asof ia false) acc).batch).all
        (fun r => !(r.ticker == tstr)) = true := by
  intro l
  induction l with
  | nil =>
    intro acc hwf hgs hev hb
    exact ⟨hwf, hgs, hev, hb⟩
  | cons x xs ih =>
    intro acc hwf hgs hev hb
    rw [List.foldl_cons]
    by_cases hx : x.pyStrip = tstr
    · rcases capStep_noRow f asof ia acc x store0 tstr hx hnr hgs with
        ⟨ht, hbt, hst, d, hde, hdw⟩
      refine ih (capStep f asof ia false acc x)
        (by rw [hst]; exact hwf) (by rw [hst]; exact hgs) ?_ (by rw [hbt]; exact hb)
      rw [hde, List.all_append, hev, hdw]
      rfl
    · rcases capStep_delta f asof ia false acc x with ⟨d, b, hde, hdb, hdall⟩
      rcases hdall tstr hx with ⟨hdev, hdbt⟩
      refine ih (capStep f asof ia false acc x)
        (capStep_WF f asof ia false acc x hwf) ?_ ?_ ?_
      · rw [capStep_get_other f asof ia false acc x hwf tstr hx]
        exact hgs
      · rw [hde, List.all_append, hev, Bool.true_and]
        rw [List.all_eq_true] at hdev ⊢
        intro ev hevm
        rw [evWritesCap_of_about tstr ev (by
          have := hdev ev hevm
          cases hab : evAboutCap tstr ev
          · rfl
          · rw [hab] at this
            cases this)]
        rfl
      · rw [hdb, List.all_append, hb, hdbt]
        rfl

theorem capStep_R3 (f : String → Except String TickerInfo) (asof ia : Int)
    (force : Bool) (a b : CapAcc) (u : String)
    (h1 : a.total = b.total) (h2 : a.batch = b.batch) (h3 : a.store = b.store) :
    (capStep f asof ia force a u).total = (capStep f asof ia force b u).total ∧
    (capStep f asof ia force a u).batch = (capStep f asof ia force b u).batch ∧
    (capStep f asof ia force a u).store = (capStep f asof ia force b u).store := by
  rw [capStep, capStep, h3]
  by_cases hc : (u.pyStrip == "" || u.pyStrip == "nan") = true
  · rw [if_pos hc, if_pos hc]
    exact ⟨h1, h2, h3⟩
  · rw [if_neg hc, if_neg hc]
    by_cases hg : (!force && skipGate (get_state b.store "yfinance"
        "fact_market_cap" u.pyStrip).2 asof) = true
    · rw [if_pos hg, if_pos hg]
      exact ⟨h1, h2, h3⟩
    · rw [if_neg hg, if_neg hg]
      split
      · exact ⟨h1, h2, rfl⟩
      · split
        · exact ⟨h1, h2, rfl⟩
        · refine ⟨?_, ?_, ?_⟩
          · show a.total + 1 = b.total + 1
            rw [h1]
          · show a.batch ++ _ = b.batch ++ _
            rw [h2]
          · rfl

theorem capStep_error_components (f : String → Except String TickerInfo)
    (asof ia : Int) (force : Bool) (acc : CapAcc) (u : String) (e : String)
    (hf : f u.pyStrip = .error e) :
    (capStep f asof ia force acc u).total = acc.total ∧
    (capStep f asof ia force acc u).batch = acc.batch ∧
    (capStep f asof ia force acc u).store = acc.store := by
  rw [capStep]
  by_cases hc : (u.pyStrip == "" || u.pyStrip == "nan") = true
  · rw [if_pos hc]
    exact ⟨rfl, rfl, rfl⟩
  · rw [if_neg hc]
    by_cases hg : (!force && skipGate (get_state acc.store "yfinance"
        "fact_market_cap" u.pyStrip).2 asof) = true
    · rw [if_pos hg]
      exact ⟨rfl, rfl, rfl⟩
    · rw [if_neg hg]
      simp only [hf]
      exact ⟨by simp, by simp, by simp⟩

theorem capFold_R3 (f : String → Except String TickerInfo) (asof ia : Int)
    (force : Bool) (l : List String) (a b : CapAcc)
    (h1 : a.total = b.total) (h2 : a.batch = b.batch) (h3 : a.store = b.store) :
    (l.foldl (capStep f asof ia force) a).total =
      (l.foldl (capStep f asof ia force) b).total ∧
    (l.foldl (capStep f asof ia force) a).batch =
      (l.foldl (capStep f asof ia force) b).batch ∧
    (l.foldl (capStep f asof ia force) a).store =
      (l.foldl (capStep f asof ia force) b).store :=
  foldl_rel (fun a b : CapAcc => a.total = b.total ∧ a.batch = b.batch ∧
      a.store = b.store)
    (capStep f asof ia force) (capStep f asof ia force)
    (fun a b x hab => capStep_R3 f asof ia force a b x hab.1 hab.2.1 hab.2.2)
    l a b ⟨h1, h2, h3⟩

theorem capFold_drop (f : String → Except String TickerInfo) (asof ia : Int)
    (force : Bool) (pre post : List String) (t0 : String) (e : String)
    (hf : f t0.pyStrip = .error e) (acc : CapAcc) :
    ((pre ++ t0 :: post).foldl (capStep f asof ia force) acc).total =
      ((pre ++ post).foldl (capStep f asof ia force) acc).total ∧
    ((pre ++ t0 :: post).foldl (capStep f asof ia force) acc).batch =
      ((pre ++ post).foldl (capStep f asof ia force) acc).batch ∧
    ((pre ++ t0 :: post).foldl (capStep f asof ia force) acc).store =
      ((pre ++ post).foldl (capStep f asof ia force) acc).store := by
  rw [List.foldl_append, List.foldl_append, List.foldl_cons]
  rcases capStep_error_components f asof ia force
    (pre.foldl (capStep f asof ia force) acc) t0 e hf with ⟨h1, h2, h3⟩
  exact capFold_R3 f asof ia force post _ _ h1 h2 h3

/-- Events that write price rows or state for one `ticker|interval` key. -/
def evWritesPr (k : String) : Event → Bool
  | .setStateEv _ _ key _ _ => key == k
  | .insertPrices key _ => key == k
  | _ => false

theorem perTicker_noWrite (iv : String) (ia : Int) (force : Bool) (t : String)
    (store0 : StateStore) (norm : List NormRow)
    (hnorm : norm.filter (fun r => r.ticker == t) = [])
    (acc : PricesAcc) (u : String) (hwf : WF acc.store)
    (hgs : get_state acc.store "yfinance" "fact_stock_prices" (t ++ "|" ++ iv) =
      get_state store0 "yfinance" "fact_stock_prices" (t ++ "|" ++ iv))
    (hev : acc.events.all (fun ev => !(evWritesPr (t ++ "|" ++ iv) ev)) = true) :
    WF (perTicker iv ia force norm acc u).store ∧
    get_state (perTicker iv ia force norm acc u).store
      "yfinance" "fact_stock_prices" (t ++ "|" ++ iv) =
      get_state store0 "yfinance" "fact_stock_prices" (t ++ "|" ++ iv) ∧
    (perTicker iv ia force norm acc u).events.all
      (fun ev => !(evWritesPr (t ++ "|" ++ iv) ev)) = true := by
  by_cases hu : u = t
  · subst hu
    rw [perTicker]
    rw [if_pos (by rw [hnorm]; rfl)]
    exact ⟨hwf, hgs, hev⟩
  · rcases perTicker_events iv ia force norm acc u with he | ⟨recs, newTs, _, _, _, he⟩
    · rw [he]
      exact ⟨hwf, hgs, hev⟩
    · have hkne : (u ++ "|" ++ iv == t ++ "|" ++ iv) = false := by
        rw [beq_eq_false_iff_ne]
        intro hcon
        exact hu (key_inj u t iv hcon)
      rw [he]
      refine ⟨?_, ?_, ?_⟩
      · exact WF_set_state acc.store hwf _ _ _ _ _
      · show get_state (set_state acc.store "yfinance" "fact_stock_prices"
          (u ++ "|" ++ iv) (some newTs) none) "yfinance" "fact_stock_prices"
            (t ++ "|" ++ iv) = _
        rw [get_state_set_state acc.store hwf]
        rw [if_neg (by simp [hkne])]
        exact hgs
      · show (acc.events ++ _).all _ = true
        rw [List.all_append, hev, Bool.true_and]
        show (!(evWritesPr (t ++ "|" ++ iv) (Event.insertPrices (u ++ "|" ++ iv) recs))
          && (!(evWritesPr (t ++ "|" ++ iv) (Event.setStateEv "yfinance"
            "fact_stock_prices" (u ++ "|" ++ iv) (some newTs) none)) && true)) = true
        rw [show evWritesPr (t ++ "|" ++ iv)
          (Event.insertPrices (u ++ "|" ++ iv) recs) = (u ++ "|" ++ iv == t ++ "|" ++ iv)
          from rfl]
        rw [show evWritesPr (t ++ "|" ++ iv) (Event.setStateEv "yfinance"
          "fact_stock_prices" (u ++ "|" ++ iv) (some newTs) none) =
          (u ++ "|" ++ iv == t ++ "|" ++ iv) from rfl]
        rw [hkne]
        rfl

theorem perChunk_noWrite (download : List String → Int → (String → Option RawFrame))
    (iv : String) (ia dlb ovl : Int) (force : Bool) (t : String)
    (store0 : StateStore)
    (hnone : ∀ chunk start, download chunk start t = none)
    (acc : PricesAcc) (chunk : List String) (hwf : WF acc.store)
    (hgs : get_state acc.store "yfinance" "fact_stock_prices" (t ++ "|" ++ iv) =
      get_state store0 "yfinance" "fact_stock_prices" (t ++ "|" ++ iv))
    (hev : acc.events.all (fun ev => !(evWritesPr (t ++ "|" ++ iv) ev)) = true) :
    WF (perChunk download iv ia dlb ovl force acc chunk).store ∧
    get_state (perChunk download iv ia dlb ovl force acc chunk).store
      "yfinance" "fact_stock_prices" (t ++ "|" ++ iv) =
      get_state store0 "yfinance" "fact_stock_prices" (t ++ "|" ++ iv) ∧
    (perChunk download iv ia dlb ovl force acc chunk).events.all
      (fun ev => !(evWritesPr (t ++ "|" ++ iv) ev)) = true := by
  rw [perChunk]
  have hnorm : (normalize_download (download chunk
      (computeEarliest acc.store iv chunk ia dlb ovl force)) chunk iv).filter
      (fun r => r.ticker == t) = [] :=
    norm_no_failed_ticker iv t chunk _ (hnone chunk _)
  have hev1 : (acc.events ++ [Event.downloadChunk chunk
      (computeEarliest acc.store iv chunk ia dlb ovl force)]).all
      (fun ev => !(evWritesPr (t ++ "|" ++ iv) ev)) = true := by
    rw [List.all_append, hev]
    rfl
  split
  · exact ⟨hwf, hgs, hev1⟩
  · exact (foldl_preserve (fun a : PricesAcc => WF a.store ∧
      get_state a.store "yfinance" "fact_stock_prices" (t ++ "|" ++ iv) =
        get_state store0 "yfinance" "fact_stock_prices" (t ++ "|" ++ iv) ∧
      a.events.all (fun ev => !(evWritesPr (t ++ "|" ++ iv) ev)) = true)
      (perTicker iv ia force (normalize_download (download chunk
        (computeEarliest acc.store iv chunk ia dlb ovl force)) chunk iv))
      (fun a x hp => perTicker_noWrite iv ia force t store0 _ hnorm a x
        hp.1 hp.2.1 hp.2.2)
      chunk { acc with events := acc.events ++ [Event.downloadChunk chunk
        (computeEarliest acc.store iv chunk ia dlb ovl force)] }
      ⟨hwf, hgs, hev1⟩)

theorem prices_noWrite (download : List String → Int → (String → Option RawFrame))
    (tickers : List String) (iv : String) (ovl dlb : Int) (cs : Nat)
    (force : Bool) (store : StateStore) (ia : Int) (t : String)
    (hwf : WF store) (hnone : ∀ chunk start, download chunk start t = none) :
    get_state (ingest_stock_prices download tickers iv ovl dlb cs
      force store ia).2.2 "yfinance" "fact_stock_prices" (t ++ "|" ++ iv) =
      get_state store "yfinance" "fact_stock_prices" (t ++ "|" ++ iv) ∧
    (ingest_stock_prices download tickers iv ovl dlb cs force store ia).2.1.all
      (fun ev => !(evWritesPr (t ++ "|" ++ iv) ev)) = true := by
  have h := foldl_preserve (fun a : PricesAcc => WF a.store ∧
      get_state a.store "yfinance" "fact_stock_prices" (t ++ "|" ++ iv) =
        get_state store "yfinance" "fact_stock_prices" (t ++ "|" ++ iv) ∧
      a.events.all (fun ev => !(evWritesPr (t ++ "|" ++ iv) ev)) = true)
    (perChunk download iv ia dlb ovl force)
    (fun a x hp => perChunk_noWrite download iv ia dlb ovl force t store hnone
      a x hp.1 hp.2.1 hp.2.2)
    (chunked (cleanTickers tickers) cs) ⟨0, [], store⟩ ⟨hwf, rfl, rfl⟩
  exact ⟨h.2.1, h.2.2⟩

def isCapIns : Event → Bool
  | .insertCap _ => true
  | _ => false

/-- The market-cap bulk-insert events of a trace. -/
def capInserts (evs : List Event) : List Event := evs.filter isCapIns

theorem capInserts_append (l1 l2 : List Event) :
    capInserts (l1 ++ l2) = capInserts l1 ++ capInserts l2 :=
  List.filter_append l1 l2

theorem capInserts_nil (l : List Event) (h : noCapInsert l = true) :
    capInserts l = [] := by
  rw [capInserts, List.filter_eq_nil_iff]
  intro ev hev
  have h2 := List.all_eq_true.mp h ev hev
  cases ev <;> simp_all [isCapIns]

/-- Claim C8: a fetch or parse failure of one entity within a batch (one
sector of the dimension job, one industry of the membership job, one ticker
of the market-cap job, one ticker within a chunked price download, modelled
as that ticker being absent from every download response) leaves that entity
out of the run's write set with its watermark unchanged, while every other
entity of the batch is processed and written exactly as without the failure. -/
theorem C8_partial_failure_isolated :
    (∀ (fetch : SectorFetch) (asof ia : Int) (s e : String)
        (pre post : List String), fetch s = .error e →
      sectorRows fetch asof ia s = [] ∧
      flatAll (sectorRows fetch asof ia) (pre ++ s :: post) =
        flatAll (sectorRows fetch asof ia) (pre ++ post)) ∧
    (∀ (ft : String → Except String (Option MemTable)) (asof ia : Int)
        (entry : String × String × String) (e : String)
        (pre post : List (String × String × String)), ft entry.2.1 = .error e →
      memRowsOf ft asof ia entry = [] ∧
      flatAll (memRowsOf ft asof ia) (pre ++ entry :: post) =
        flatAll (memRowsOf ft asof ia) (pre ++ post)) ∧
    (∀ (f : String → Except String TickerInfo) (store : StateStore)
        (asof ia : Int) (force : Bool) (pre post : List String) (t0 e : String),
      f t0.pyStrip = .error e →
      (ingest_market_cap f store (pre ++ t0 :: post) asof ia force).1 =
        (ingest_market_cap f store (pre ++ post) asof ia force).1 ∧
      (ingest_market_cap f store (pre ++ t0 :: post) asof ia force).2.2 =
        (ingest_market_cap f store (pre ++ post) asof ia force).2.2 ∧
      capInserts (ingest_market_cap f store (pre ++ t0 :: post) asof ia force).2.1 =
        capInserts (ingest_market_cap f store (pre ++ post) asof ia force).2.1) ∧
    (∀ (f : String → Except String TickerInfo) (store : StateStore)
        (tickers : List String) (asof ia : Int) (tstr e : String),
      WF store → f tstr = .error e →
      get_state (ingest_market_cap f store tickers asof ia false).2.2
          "yfinance" "fact_market_cap" tstr =
        get_state store "yfinance" "fact_market_cap" tstr ∧
      (ingest_market_cap f store tickers asof ia false).2.1.all
        (fun ev => !(evWritesCap tstr ev)) = true) ∧
    (∀ (iv u : String) (chunk : List String)
        (frames1 frames2 : String → Option RawFrame) (t : String),
      u ≠ t → (∀ w, w ≠ t → frames1 w = frames2 w) →
      (normalize_download frames1 chunk iv).filter (fun r => r.ticker == u) =
        (normalize_download frames2 chunk iv).filter (fun r => r.ticker == u)) ∧
    (∀ (download : List String → Int → (String → Option RawFrame))
        (tickers : List String) (iv : String) (ovl dlb : Int) (cs : Nat)
        (force : Bool) (store : StateStore) (ia : Int) (t : String),
      WF store → (∀ chunk start, download chunk start t = none) →
      get_state (ingest_stock_prices download tickers iv ovl dlb cs
          force store ia).2.2 "yfinance" "fact_stock_prices" (t ++ "|" ++ iv) =
        get_state store "yfinance" "fact_stock_prices" (t ++ "|" ++ iv) ∧
      (ingest_stock_prices download tickers iv ovl dlb cs force store ia).2.1.all
        (fun ev => !(evWritesPr (t ++ "|" ++ iv) ev)) = true) := by
  refine ⟨?_, ?_, ?_, ?_, ?_, ?_⟩
  · intro fetch asof ia s e pre post hf
    have hz := sectorRows_error fetch asof ia s e hf
    refine ⟨hz, ?_⟩
    rw [flatAll_append, flatAll_append, flatAll, hz, List.nil_append]
  · intro ft asof ia entry e pre post hf
    have hz := memRowsOf_error ft asof ia entry e hf
    refine ⟨hz, ?_⟩
    rw [flatAll_append, flatAll_append, flatAll, hz, List.nil_append]
  · intro f store asof ia force pre post t0 e hf
    rcases capFold_drop f asof ia force pre post t0 e hf ⟨0, [], [], store⟩ with
      ⟨h1, h2, h3⟩
    refine ⟨h1, h3, ?_⟩
    have h0 : noCapInsert (CapAcc.mk 0 [] [] store).events = true := rfl
    have hncF : noCapInsert (((pre ++ t0 :: post).foldl (capStep f asof ia force)
        ⟨0, [], [], store⟩).events) = true :=
      foldl_preserve (fun a => noCapInsert a.events = true) (capStep f asof ia force)
        (fun a x hp => capStep_noCap f asof ia force a x hp) (pre ++ t0 :: post)
        ⟨0, [], [], store⟩ h0
    have hncD : noCapInsert (((pre ++ post).foldl (capStep f asof ia force)
        ⟨0, [], [], store⟩).events) = true :=
      foldl_preserve (fun a => noCapInsert a.events = true) (capStep f asof ia force)
        (fun a x hp => capStep_noCap f asof ia force a x hp) (pre ++ post)
        ⟨0, [], [], store⟩ h0
    have hevF : (ingest_market_cap f store (pre ++ t0 :: post) asof ia force).2.1 =
        ((pre ++ t0 :: post).foldl (capStep f asof ia force) ⟨0, [], [], store⟩).events ++
          (if ((pre ++ t0 :: post).foldl (capStep f asof ia force)
              ⟨0, [], [], store⟩).batch.isEmpty then []
            else [Event.insertCap (((pre ++ t0 :: post).foldl (capStep f asof ia force)
              ⟨0, [], [], store⟩).batch)]) := rfl
    have hevD : (ingest_market_cap f store (pre ++ post) asof ia force).2.1 =
        ((pre ++ post).foldl (capStep f asof ia force) ⟨0, [], [], store⟩).events ++
          (if ((pre ++ post).foldl (capStep f asof ia force)
              ⟨0, [], [], store⟩).batch.isEmpty then []
            else [Event.insertCap (((pre ++ post).foldl (capStep f asof ia force)
              ⟨0, [], [], store⟩).batch)]) := rfl
    rw [hevF, hevD, capInserts_append, capInserts_append,
      capInserts_nil _ hncF, capInserts_nil _ hncD, List.nil_append,
      List.nil_append, h2]
  · intro f store tickers asof ia tstr e hwf hf
    have H := capFold_noWrite f asof ia store tstr (Or.inr (Or.inl ⟨e, hf⟩))
      tickers ⟨0, [], [], store⟩ hwf rfl rfl rfl
    refine ⟨H.2.1, ?_⟩
    have hevq : (ingest_market_cap f store tickers asof ia false).2.1 =
        (tickers.foldl (capStep f asof ia false) ⟨0, [], [], store⟩).events ++
          (if (tickers.foldl (capStep f asof ia false)
              ⟨0, [], [], store⟩).batch.isEmpty then []
            else [Event.insertCap ((tickers.foldl (capStep f asof ia false)
              ⟨0, [], [], store⟩).batch)]) := rfl
    rw [hevq, List.all_append, H.2.2.1, Bool.true_and]
    by_cases hb : ((tickers.foldl (capStep f asof ia false)
        ⟨0, [], [], store⟩).batch).isEmpty = true
    · rw [if_pos hb]
      rfl
    · rw [if_neg hb]
      have hany := any_eq_false_of_all_not _ _ H.2.2.2
      show (!(evWritesCap tstr (Event.insertCap _)) && true) = true
      rw [show evWritesCap tstr (Event.insertCap ((tickers.foldl
        (capStep f asof ia false) ⟨0, [], [], store⟩).batch)) =
        ((tickers.foldl (capStep f asof ia false) ⟨0, [], [], store⟩).batch).any
          (fun r => r.ticker == tstr) from rfl]
      rw [hany]
      rfl
  · intro iv u chunk frames1 frames2 t hu hagree
    exact normalize_filter_ticker iv u chunk frames1 frames2 t hu hagree
  · intro download tickers iv ovl dlb cs force store ia t hwf hnone
    exact prices_noWrite download tickers iv ovl dlb cs force store ia t hwf hnone

def goodTbl : RawTable :=
  ⟨["key", "name", "symbol", "weight"],
   [[⟨"semis", some 0⟩, ⟨"Semiconductors", none⟩, ⟨"SOXX", none⟩, ⟨"w", some 1⟩]]⟩

def fetchMixed : SectorFetch :=
  fun s => if s == "bad" then .error "x" else .ok (some goodTbl)

def capMixed : String → Except String TickerInfo :=
  fun t => if t == "B" then .error "x" else .ok ⟨some 10, some "USD"⟩

/-- Witness for C8 at concrete inputs: the failing sector contributes no
rows while the good sector's rows are unchanged; a failing ticker leaves its
market-cap watermark untouched with no write events; a ticker absent from
every download leaves its price watermark untouched with no write events. -/
theorem C8_witness :
    (sectorRows fetchMixed 5 6 "bad" = [] ∧
      flatAll (sectorRows fetchMixed 5 6) (["good"] ++ "bad" :: []) =
        flatAll (sectorRows fetchMixed 5 6) (["good"] ++ [])) ∧
    (get_state (ingest_market_cap capMixed [] ["A", "B"] 5 6 false).2.2
        "yfinance" "fact_market_cap" "B" =
      get_state [] "yfinance" "fact_market_cap" "B" ∧
      (ingest_market_cap capMixed [] ["A", "B"] 5 6 false).2.1.all
        (fun ev => !(evWritesCap "B" ev)) = true) ∧
    (get_state (ingest_stock_prices dlOneFrame ["A", "B"] "1d" 2 100 50
        false [] 1000).2.2 "yfinance" "fact_stock_prices" ("B" ++ "|" ++ "1d") =
      get_state [] "yfinance" "fact_stock_prices" ("B" ++ "|" ++ "1d") ∧
      (ingest_stock_prices dlOneFrame ["A", "B"] "1d" 2 100 50
        false [] 1000).2.1.all
        (fun ev => !(evWritesPr ("B" ++ "|" ++ "1d") ev)) = true) :=
  ⟨C8_partial_failure_isolated.1 fetchMixed 5 6 "bad" "x" ["good"] [] rfl,
   C8_partial_failure_isolated.2.2.2.1 capMixed [] ["A", "B"] 5 6 "B" "x"
     WF_nil rfl,
   C8_partial_failure_isolated.2.2.2.2.2 dlOneFrame ["A", "B"] "1d" 2 100 50
     false [] 1000 "B" WF_nil (fun _ _ => rfl)⟩

end Mewroo
